import Mathlib

/-!
Shallow embedding of the rust-autograd core under verification: the
broadcast-aware gradient reduction ops (PreprocessBinOpGrad and
PreprocessBinOpGradGrad), the elementwise binary op forwards and gradient
builders from binary_ops.rs, the transposed-convolution kernel from
conv2d_transpose.rs, and the placeholder-feeding API from context.rs.

Arrays are modelled as a shape (list of dimension sizes) plus row-major
flat data over exact rationals, standing in for the ndarray f32 arrays.
A fatal runtime panic is modelled as the `fatal` compute result (for ops)
or as `none` (for the context API and for ndarray primitives that panic).
-/

abbrev Shape := List Nat

abbrev Index := List Nat

def shapeProd (s : Shape) : Nat := s.prod

/-- Row-major conversion of a flat offset into a multi-index for shape `s`. -/
def unflatten : Shape → Nat → Index
  | [], _ => []
  | _ :: ds, n => n / shapeProd ds :: unflatten ds (n % shapeProd ds)

/-- Row-major conversion of a multi-index into a flat offset for shape `s`. -/
def flattenIdx : Shape → Index → Nat
  | [], _ => 0
  | _ :: _, [] => 0
  | _ :: ds, i :: is => i * shapeProd ds + flattenIdx ds is

/-- A multi-index is in bounds for a shape.  Positions beyond the length
use defaults (index 0, extent 1), so the unbounded quantifier agrees with
the bounded one. -/
def IdxOK (s : Shape) (ix : Index) : Prop :=
  ix.length = s.length ∧ ∀ j, ix.getD j 0 < s.getD j 1

/-- The opaque dense array of the numeric kernel layer: a shape and
row-major flat data. -/
structure NdArray where
  shape : Shape
  data : List ℚ
deriving DecidableEq, Repr

/-- Read one element at a multi-index (0 beyond the data). -/
def NdArray.get (a : NdArray) (ix : Index) : ℚ :=
  a.data.getD (flattenIdx a.shape ix) 0

/-- Tabulate an array of shape `s` from a function on multi-indices. -/
def ofFn (s : Shape) (f : Index → ℚ) : NdArray :=
  ⟨s, (List.range (shapeProd s)).map fun n => f (unflatten s n)⟩

/-- ndarray/NumPy broadcast compatibility of a source shape against a
target shape: trailing-aligned, every aligned source extent equals the
target extent or is 1, and the source may not have more axes. -/
def bcastCompat (src t : Shape) : Bool :=
  decide (src.length ≤ t.length) &&
    ((t.drop (t.length - src.length)).zip src).all fun p => p.2 == p.1 || p.2 == 1

/-- Map a target multi-index back to the source element it is broadcast
from (clamping size-1 source axes to 0). -/
def bcastIdx (src : Shape) (ix : Index) : Index :=
  ((ix.drop (ix.length - src.length)).zip src).map fun p => if p.2 = 1 then 0 else p.1

/-- ndarray's `.broadcast(target)`: a replicated view, `none` when the
shapes are incompatible (the caller panics). -/
def ndBroadcast (a : NdArray) (t : Shape) : Option NdArray :=
  if bcastCompat a.shape t then some (ofFn t fun ix => a.get (bcastIdx a.shape ix))
  else none

/-- ndarray's arithmetic between two arrays (also `zip_mut_with`): the
right-hand operand is broadcast to the left-hand operand's shape; `none`
models the panic when that broadcast is impossible. -/
def ndBinOp (f : ℚ → ℚ → ℚ) (a b : NdArray) : Option NdArray :=
  match ndBroadcast b a.shape with
  | some b2 => some (ofFn a.shape fun ix => f (a.get ix) (b2.get ix))
  | none => none

/-- Insert `x` at position `i` of a list (Vec::insert for `i ≤ length`). -/
def insAt (i : Nat) (x : Nat) (l : List Nat) : List Nat := l.take i ++ x :: l.drop i

/-- Remove position `i` of a list. -/
def eraseAt (i : Nat) (l : List Nat) : List Nat := l.take i ++ l.drop (i + 1)

/-- ndarray's `fold_axis(Axis i, 0., |a, b| a + b)`: sum along axis `i`,
removing that axis from the shape. -/
def foldAxisSum (a : NdArray) (i : Nat) : NdArray :=
  ofFn (eraseAt i a.shape) fun ix =>
    ∑ j ∈ Finset.range (a.shape.getD i 0), a.get (insAt i j ix)

/-- ndarray_ext::expand_dims: insert a size-1 axis at position `i`,
keeping the flat data. -/
def expandDims (a : NdArray) (i : Nat) : NdArray := ⟨insAt i 1 a.shape, a.data⟩

/-- expand_dims with the Vec::insert bound check (`none` = panic). -/
def expandDimsChecked (a : NdArray) (i : Nat) : Option NdArray :=
  if i ≤ a.shape.length then some (expandDims a i) else none

/-- ndarray indexing with the 0-d index `IxDyn(&[])`: only defined on a
0-d array, otherwise the index dimensionality mismatches and panics. -/
def scalarRead (a : NdArray) : Option ℚ :=
  if a.shape = [] then some (a.data.getD 0 0) else none

/-- One op output slot: a computed value, the zero-copy delegate marker
`Err(ComputeException::Delegate { to })`, or a fatal panic. -/
inductive ComputeValue where
  | ok (a : NdArray)
  | delegate (i : Nat)
  | fatal
deriving DecidableEq, Repr

/-- Shape of the value produced by a compute result, if any. -/
def cvShape : ComputeValue → Option Shape
  | .ok a => some a.shape
  | _ => none

/-- Modelled from the spec: ndarray_ext::is_scalar_shape, the "pure
scalar" detection used by the reduction op; per the spec's open question
on scalar-broadcast detection a lone zero-sized dimension is treated as
scalar-like next to the empty shape, exactly as in the in-repo
add_forward/mul_forward scalar tests. -/
def isScalarShape (s : Shape) : Bool := s == [] || s == [0]

/-- The reduction loop of PreprocessBinOpGrad::compute over the
enumerated zip of the (possibly scalar-substituted) operand shape with
the gradient shape, carrying the optional partially folded array.
`none` models the `panic!("... don't broadcast")` arm. -/
def PreprocessBinOpGrad.loop (gy : NdArray) (xsc : Bool) :
    List (Nat × Nat × Nat) → Option NdArray → Option (Option NdArray)
  | [], folded => some folded
  | (i, xa, ga) :: rest, folded =>
    if xa < ga then
      if xa = 1 then
        PreprocessBinOpGrad.loop gy xsc rest
          (some (if xsc then foldAxisSum (folded.getD gy) 0
                 else expandDims (foldAxisSum (folded.getD gy) i) i))
      else none
    else PreprocessBinOpGrad.loop gy xsc rest folded

/-- PreprocessBinOpGrad::compute.  Inputs `[gy, target_shape]`; the
second input, a 1-D shape array run through vec_as_shape, is modelled
directly as the shape it denotes.  The final `folded.unwrap()` panic
(no fold ever happened although the shapes differ) is `fatal`. -/
def PreprocessBinOpGrad.compute (gy : NdArray) (xShape : Shape) : ComputeValue :=
  if xShape = gy.shape then .delegate 0
  else
    let xsc := isScalarShape xShape
    let xShape2 := if xsc then List.replicate gy.shape.length 1 else xShape
    match PreprocessBinOpGrad.loop gy xsc ((xShape2.zip gy.shape).enum) none with
    | some (some r) => .ok r
    | some none => .fatal
    | none => .fatal

/-- The scalar-expansion loop of PreprocessBinOpGradGrad::compute: one
expand_dims_view per entry of the target shape, using the entry value as
the insertion position (as the source does). -/
def PreprocessBinOpGradGrad.expandLoop : NdArray → List Nat → Option NdArray
  | a, [] => some a
  | a, ax :: rest =>
    match expandDimsChecked a ax with
    | some a2 => PreprocessBinOpGradGrad.expandLoop a2 rest
    | none => none

/-- PreprocessBinOpGradGrad::compute: delegate when the shapes already
agree, otherwise broadcast up to the target shape (after the scalar
expansion loop when the input is scalar-shaped). -/
def PreprocessBinOpGradGrad.compute (gy : NdArray) (target : Shape) : ComputeValue :=
  if gy.shape = target then .delegate 0
  else
    match
      (if isScalarShape gy.shape then PreprocessBinOpGradGrad.expandLoop gy target
       else some gy) with
    | none => .fatal
    | some g2 =>
      match ndBroadcast g2 target with
      | some r => .ok r
      | none => .fatal

/-- The scalar test of the impl_bin_op_forward macro: shape `[]` or `[0]`. -/
def binForwardIsScalar (s : Shape) : Bool := s == [] || s == [0]

/-- Body of the impl_bin_op_forward macro shared by add_forward and
mul_forward. -/
def binForward (f : ℚ → ℚ → ℚ) (x0 x1 : NdArray) : ComputeValue :=
  let sc0 := binForwardIsScalar x0.shape
  let sc1 := binForwardIsScalar x1.shape
  if sc0 && !sc1 then
    match scalarRead x0 with
    | some e => .ok ⟨x1.shape, x1.data.map fun a => f a e⟩
    | none => .fatal
  else if sc1 && !sc0 then
    match scalarRead x1 with
    | some e => .ok ⟨x0.shape, x0.data.map fun a => f a e⟩
    | none => .fatal
  else if !sc0 && !sc1 then
    if shapeProd x0.shape > shapeProd x1.shape then
      match ndBinOp f x0 x1 with
      | some r => .ok r
      | none => .fatal
    else
      match ndBinOp f x1 x0 with
      | some r => .ok r
      | none => .fatal
  else
    match ndBinOp f x0 x1 with
    | some r => .ok r
    | none => .fatal

def add_forward (x0 x1 : NdArray) : ComputeValue := binForward (· + ·) x0 x1

def mul_forward (x0 x1 : NdArray) : ComputeValue := binForward (· * ·) x0 x1

def AddOp.compute (x0 x1 : NdArray) : ComputeValue := add_forward x0 x1

def MulOp.compute (x0 x1 : NdArray) : ComputeValue := mul_forward x0 x1

/-- The scalar test SubOp::compute applies to its first operand only. -/
def SubOp.isScalar0 (s : Shape) : Bool := s == []

/-- SubOp::compute: special-cases a 0-d first operand, else elementwise. -/
def SubOp.compute (x0 x1 : NdArray) : ComputeValue :=
  if SubOp.isScalar0 x0.shape then
    .ok ⟨x1.shape, x1.data.map fun a => x0.data.getD 0 0 - a⟩
  else
    match ndBinOp (· - ·) x0 x1 with
    | some r => .ok r
    | none => .fatal

/-- The scalar test DivOp::compute applies to its first operand. -/
def DivOp.isScalar0 (s : Shape) : Bool := s == [] || s == [0]

/-- The scalar test DivOp::compute applies to its second operand. -/
def DivOp.isScalar1 (s : Shape) : Bool := s == [] || s == [1]

/-- DivOp::compute. -/
def DivOp.compute (x0 x1 : NdArray) : ComputeValue :=
  if DivOp.isScalar0 x0.shape then
    match scalarRead x0 with
    | some e => .ok ⟨x1.shape, x1.data.map fun a => e / a⟩
    | none => .fatal
  else if DivOp.isScalar1 x1.shape then
    match scalarRead x1 with
    | some e => .ok ⟨x0.shape, x0.data.map fun a => a * (1 / e)⟩
    | none => .fatal
  else
    match ndBinOp (· / ·) x0 x1 with
    | some r => .ok r
    | none => .fatal

/-- In-place op computes: `xs[0].zip_mut_with(&xs[1], ...)` then an
unconditional delegate to input 0.  The result triple is the mutated
first storage, the untouched second storage, and the compute result;
`none` models the broadcasting panic inside zip_mut_with. -/
def InplaceAddOp.compute (x0 x1 : NdArray) : Option (NdArray × NdArray × ComputeValue) :=
  match ndBinOp (· + ·) x0 x1 with
  | some r => some (r, x1, .delegate 0)
  | none => none

def InplaceSubOp.compute (x0 x1 : NdArray) : Option (NdArray × NdArray × ComputeValue) :=
  match ndBinOp (· - ·) x0 x1 with
  | some r => some (r, x1, .delegate 0)
  | none => none

def InplaceMulOp.compute (x0 x1 : NdArray) : Option (NdArray × NdArray × ComputeValue) :=
  match ndBinOp (· * ·) x0 x1 with
  | some r => some (r, x1, .delegate 0)
  | none => none

def InplaceDivOp.compute (x0 x1 : NdArray) : Option (NdArray × NdArray × ComputeValue) :=
  match ndBinOp (· / ·) x0 x1 with
  | some r => some (r, x1, .delegate 0)
  | none => none

/-- Op identifiers for the graph-node model (a closed catalog is enough
for the ops under verification; `PH` is the placeholder op name). -/
inductive OpName where
  | addO
  | subO
  | mulO
  | divO
  | inplaceAddO
  | inplaceSubO
  | inplaceMulO
  | inplaceDivO
  | preprocessBinOpGradO
  | preprocessBinOpGradGradO
  | shapeO
  | negO
  | PH
  | variableO
deriving DecidableEq, Repr

/-- A tensor graph node: an op applied to an ordered input list plus an
optional shape sub-graph, as produced by Tensor::builder. -/
inductive GTensor where
  | node (op : OpName) (inputs : List GTensor) (shape : Option GTensor)

/-- Modelled from the spec: `Tensor::shape()` builds a sub-graph
computing the operand's shape (the spec's "sub-graph computing a shape"). -/
def GTensor.shapeOf (x : GTensor) : GTensor := .node .shapeO [x] none

/-- Modelled from the spec: ops::neg builds a negation node over its
input (part of the opaque operation catalog). -/
def opsNeg (x : GTensor) : GTensor := .node .negO [x] none

/-- preprocess_gy: build one PreprocessBinOpGrad node per operand,
wired to the raw gradient and that operand's shape sub-graph. -/
def preprocess_gy (x0 x1 gy : GTensor) : GTensor × GTensor :=
  (.node .preprocessBinOpGradO [gy, x0.shapeOf] (some x0.shapeOf),
   .node .preprocessBinOpGradO [gy, x1.shapeOf] (some x1.shapeOf))

/-- AddOp::grad. -/
def AddOp.grad (gy x0 x1 : GTensor) : List (Option GTensor) :=
  [some (preprocess_gy x0 x1 gy).1, some (preprocess_gy x0 x1 gy).2]

/-- SubOp::grad. -/
def SubOp.grad (gy x0 x1 : GTensor) : List (Option GTensor) :=
  [some (preprocess_gy x0 x1 gy).1, some (opsNeg (preprocess_gy x0 x1 gy).2)]

/-- InplaceAddOp::grad. -/
def InplaceAddOp.grad (gy x0 x1 : GTensor) : List (Option GTensor) :=
  [some (preprocess_gy x0 x1 gy).1, some (preprocess_gy x0 x1 gy).2]

/-- InplaceSubOp::grad. -/
def InplaceSubOp.grad (gy x0 x1 : GTensor) : List (Option GTensor) :=
  [some (preprocess_gy x0 x1 gy).1, some (opsNeg (preprocess_gy x0 x1 gy).2)]

/-- InplaceMulOp::grad ignores all arguments and yields no gradients. -/
def InplaceMulOp.grad (_gy _x0 _x1 : GTensor) : List (Option GTensor) :=
  [none, none]

/-- InplaceDivOp::grad ignores all arguments and yields no gradients. -/
def InplaceDivOp.grad (_gy _x0 _x1 : GTensor) : List (Option GTensor) :=
  [none, none]

/-- The Conv2DTranspose op struct. -/
structure Conv2DTranspose where
  pad : Nat
  stride : Nat
  dilation : Nat
deriving DecidableEq, Repr

/-- Modelled from the spec: the get_xh!/get_xw! size macros, the standard
transposed-convolution relation
`output_dim = (input_dim - 1) * stride - 2*pad + dilation*(kernel_dim - 1) + 1`
(the subtraction placed last so the natural-number value agrees with the
integer formula whenever the latter is non-negative). -/
def getXh (op : Conv2DTranspose) (yh kh : Nat) : Nat :=
  (yh - 1) * op.stride + op.dilation * (kh - 1) + 1 - 2 * op.pad

/-- Modelled from the spec: one entry of the per-batch sgemm
`col = transpose(w-matrix) * gy-matrix` with `k = ych` — the batched
general matrix multiply between the filter and the gradient, laid out as
`col[c, kh, kw, oh, ow]`. -/
def sgemmColVal (w gy : NdArray) (ych i c kh2 kw2 oh ow : Nat) : ℚ :=
  ∑ l ∈ Finset.range ych, w.get [l, c, kh2, kw2] * gy.get [i, l, oh, ow]

/-- Modelled from the spec: col2im — scatter every column entry to the
image position its kernel offset maps to, accumulating overlapping
receptive-field contributions by summation (zero-initialised output). -/
def col2imVal (op : Conv2DTranspose) (w gy : NdArray) (ych kh kw yh yw : Nat)
    (i c h w2 : Nat) : ℚ :=
  ∑ kh2 ∈ Finset.range kh, ∑ kw2 ∈ Finset.range kw,
    ∑ oh ∈ Finset.range yh, ∑ ow ∈ Finset.range yw,
      if oh * op.stride + kh2 * op.dilation = h + op.pad ∧
          ow * op.stride + kw2 * op.dilation = w2 + op.pad then
        sgemmColVal w gy ych i c kh2 kw2 oh ow
      else 0

/-- Conv2DTranspose::compute: per batch, sgemm into the column buffer
then col2im into the zeroed gradient buffer, reshaped to
`[batch, xch, xh, xw]`.  The shape asserts (4-D inputs, channel
agreement) panic otherwise. -/
def Conv2DTranspose.compute (op : Conv2DTranspose) (gy w : NdArray) : ComputeValue :=
  if gy.shape.length = 4 ∧ w.shape.length = 4 ∧ gy.shape.getD 1 0 = w.shape.getD 0 0 then
    .ok (ofFn [gy.shape.getD 0 0, w.shape.getD 1 0,
               getXh op (gy.shape.getD 2 0) (w.shape.getD 2 0),
               getXh op (gy.shape.getD 3 0) (w.shape.getD 3 0)] fun ix =>
      col2imVal op w gy (gy.shape.getD 1 0) (w.shape.getD 2 0) (w.shape.getD 3 0)
        (gy.shape.getD 2 0) (gy.shape.getD 3 0)
        (ix.getD 0 0) (ix.getD 1 0) (ix.getD 2 0) (ix.getD 3 0))
  else .fatal

/-- An array of the given shape filled with ones. -/
def ndOnes (s : Shape) : NdArray := ⟨s, List.replicate (shapeProd s) 1⟩

/-- A graph node as seen by the Context feeding API: its identity, its
op's name and its optionally declared shape.  Modelled from the spec for
the shape part: the placeholder's shape sub-graph evaluates to the
declared shape. -/
structure CTensor where
  id : Nat
  op : OpName
  shape : Option Shape
deriving DecidableEq

/-- The evaluation context's transient output map, keyed by node
identity. -/
structure Context where
  outputs : Nat → Option NdArray

/-- `self.outputs.insert(placeholder.clone(), Ok(arr))`. -/
def Context.bindOutput (c : Context) (t : CTensor) (arr : NdArray) : Context :=
  ⟨fun k => if k = t.id then some arr else c.outputs k⟩

/-- Context::feed_input_unchecked: panic (`none`) on a non-placeholder,
otherwise bind with no shape check. -/
def Context.feed_input_unchecked (c : Context) (ph : CTensor) (arr : NdArray) :
    Option Context :=
  if ph.op = .PH then some (c.bindOutput ph arr) else none

/-- The assert_eq shape comparison of Context::feed_input (skipped when
no shape was declared). -/
def shapeMatches (ph : CTensor) (arr : NdArray) : Bool :=
  match ph.shape with
  | some s => s == arr.shape
  | none => true

/-- Context::feed_input: panic on a non-placeholder, panic on a declared
shape mismatch, otherwise bind. -/
def Context.feed_input (c : Context) (ph : CTensor) (arr : NdArray) : Option Context :=
  if ph.op = .PH then
    if shapeMatches ph arr then some (c.bindOutput ph arr) else none
  else none

/-- Modelled from the spec: the NumPy-style common broadcast shape of two
operand shapes (trailing-aligned, size-1 or absent axes expand), used to
state what the "ordinary elementwise result" of a binary op is. -/
def npCommonRev : List Nat → List Nat → Option (List Nat)
  | [], l => some l
  | l, [] => some l
  | a :: as, b :: bs =>
    if a = b ∨ a = 1 ∨ b = 1 then (npCommonRev as bs).map fun t => max a b :: t
    else none

/-- Common NumPy broadcast shape (aligning the trailing axes). -/
def npBroadcastShape (s1 s2 : Shape) : Option Shape :=
  (npCommonRev s1.reverse s2.reverse).map List.reverse

/-- Modelled from the spec: the ordinary NumPy-style elementwise result
of a binary operation, with both operands broadcast to the common shape. -/
def npElemwise (f : ℚ → ℚ → ℚ) (a b : NdArray) : Option NdArray :=
  match npBroadcastShape a.shape b.shape with
  | some c =>
    match ndBroadcast a c, ndBroadcast b c with
    | some a2, some b2 => some (ofFn c fun ix => f (a2.get ix) (b2.get ix))
    | _, _ => none
  | none => none

/-- Componentwise broadcast matching of a gradient-shape index `iy`
against an operand-shape index `ix`: free wherever the operand extent is
1, pinned elsewhere. -/
def clampMatch : Shape → Index → Index → Bool
  | [], _, _ => true
  | _ :: _, [], _ => true
  | _ :: _, _ :: _, [] => true
  | x :: xs, i :: is, y :: ys => (x == 1 || i == y) && clampMatch xs is ys

/-- The sum of all gradient elements broadcast from operand position
`ix`: the specified meaning of the broadcast reduction. -/
def broadcastReduceSum (xs : Shape) (gy : NdArray) (ix : Index) : ℚ :=
  ∑ n ∈ Finset.range (shapeProd gy.shape),
    if clampMatch xs ix (unflatten gy.shape n) then gy.data.getD n 0 else 0

/-- Product of the broadcast-axis sizes (the number of gradient elements
mapping onto one operand element). -/
def bfactor : Shape → Shape → Nat
  | [], _ => 1
  | _, [] => 1
  | x :: xs, g :: gys => (if x = 1 then g else 1) * bfactor xs gys

/-- Invariant condition of the reduction loop after the first `k` axes:
positions already folded are free, all others pinned. -/
def matchUpto (xs gys : Shape) (k : Nat) (ix iy : Index) : Prop :=
  ∀ j < gys.length, (j < k ∧ xs.getD j 1 < gys.getD j 1) ∨ ix.getD j 0 = iy.getD j 0

instance (xs gys : Shape) (k : Nat) (ix iy : Index) :
    Decidable (matchUpto xs gys k ix iy) := by
  unfold matchUpto; exact inferInstance

/-- Partial reduction value after the first `k` axes. -/
def reduceValk (xs gys : Shape) (k : Nat) (gy : NdArray) (ix : Index) : ℚ :=
  ∑ n ∈ Finset.range (shapeProd gys),
    if matchUpto xs gys k ix (unflatten gys n) then gy.data.getD n 0 else 0

/-- Shape of the loop state after the first `k` axes. -/
def mixShape (xs gys : Shape) (k : Nat) : Shape := xs.take k ++ gys.drop k

/-- Loop state array after the first `k` axes. -/
def mixArr (xs gys : Shape) (k : Nat) (gy : NdArray) : NdArray :=
  ofFn (mixShape xs gys k) (reduceValk xs gys k gy)

/-- Whether some axis before `k` is an actual broadcast axis. -/
def foldedBy (xs gys : Shape) (k : Nat) : Prop :=
  ∃ j, j < k ∧ xs.getD j 1 < gys.getD j 1

instance (xs gys : Shape) (k : Nat) : Decidable (foldedBy xs gys k) := by
  unfold foldedBy; exact inferInstance

/-- The scalar-operand loop state: sums over the first `k` gradient
coordinates, leaving the tail coordinates. -/
def tailSum (gys : Shape) (k : Nat) (gy : NdArray) (ix : Index) : ℚ :=
  ∑ n ∈ Finset.range (shapeProd gys),
    if (unflatten gys n).drop k = ix then gy.data.getD n 0 else 0

/-- The canonical broadcast of an `xs`-shaped array up to shape `gys`:
every target position reads the source element it is broadcast from. -/
def expandedArr (xs gys : Shape) (t : NdArray) : NdArray :=
  ofFn gys fun iy => t.get (bcastIdx xs iy)

/-! ## Theorems -/

/-- Claim C2: whenever the incoming gradient's shape already equals the
target shape, PreprocessBinOpGrad::compute and
PreprocessBinOpGradGrad::compute both return the zero-copy delegate
marker to input 0 (`Err(ComputeException::Delegate { to: 0 })`), so the
output is the input gradient itself by identity rather than a copy. -/
theorem claim_C2 (gy : NdArray) (xShape : Shape) (h : xShape = gy.shape) :
    PreprocessBinOpGrad.compute gy xShape = .delegate 0 ∧
      PreprocessBinOpGradGrad.compute gy xShape = .delegate 0 := by
  refine ⟨?_, ?_⟩
  · unfold PreprocessBinOpGrad.compute
    rw [if_pos h]
  · unfold PreprocessBinOpGradGrad.compute
    rw [if_pos h.symm]

/-- Witness for C2 at a concrete equal-shape pair. -/
theorem claim_C2_witness :
    ([2, 2] : Shape) = (NdArray.mk [2, 2] [1, 2, 3, 4]).shape ∧
      PreprocessBinOpGrad.compute ⟨[2, 2], [1, 2, 3, 4]⟩ [2, 2] = .delegate 0 ∧
      PreprocessBinOpGradGrad.compute ⟨[2, 2], [1, 2, 3, 4]⟩ [2, 2] = .delegate 0 :=
  ⟨rfl, claim_C2 ⟨[2, 2], [1, 2, 3, 4]⟩ [2, 2] rfl⟩

/-- Claim C3: for every operand pair the gradient nodes built by
InplaceAddOp::grad are the same as those built by AddOp::grad and those
of InplaceSubOp::grad the same as SubOp::grad, while InplaceMulOp::grad
and InplaceDivOp::grad always return no gradient for either input. -/
theorem claim_C3 (gy x0 x1 : GTensor) :
    InplaceAddOp.grad gy x0 x1 = AddOp.grad gy x0 x1 ∧
      InplaceSubOp.grad gy x0 x1 = SubOp.grad gy x0 x1 ∧
      InplaceMulOp.grad gy x0 x1 = [none, none] ∧
      InplaceDivOp.grad gy x0 x1 = [none, none] :=
  ⟨rfl, rfl, rfl, rfl⟩

/-- Claim C8: the scalar-broadcast detections of the binary ops, as used
by their computes, are mutually inconsistent about the shape `[0]`: the
division op counts `[]` and `[0]` as a scalar first operand but `[]` and
`[1]` as a scalar second operand, the shared add/mul forward counts `[]`
and `[0]`, and the subtraction op counts only `[]`. -/
theorem claim_C8 :
    (∀ s : Shape, DivOp.isScalar0 s = true ↔ s = [] ∨ s = [0]) ∧
      (∀ s : Shape, DivOp.isScalar1 s = true ↔ s = [] ∨ s = [1]) ∧
      (∀ s : Shape, binForwardIsScalar s = true ↔ s = [] ∨ s = [0]) ∧
      (∀ s : Shape, SubOp.isScalar0 s = true ↔ s = []) ∧
      DivOp.isScalar0 [0] = true ∧ binForwardIsScalar [0] = true ∧
      DivOp.isScalar1 [0] = false ∧ SubOp.isScalar0 [0] = false := by
  refine ⟨fun s => ?_, fun s => ?_, fun s => ?_, fun s => ?_, rfl, rfl, rfl, rfl⟩ <;>
    simp [DivOp.isScalar0, DivOp.isScalar1, binForwardIsScalar, SubOp.isScalar0]

/-- Claim C9: feeding a non-placeholder node is fatal for both
Context::feed_input and Context::feed_input_unchecked (modelled as
`none`, the panic); feed_input additionally fails when a declared shape
disagrees with the fed array's shape while feed_input_unchecked never
shape-checks; on success both insert the value into the context's
transient output map under the placeholder's identity. -/
theorem claim_C9 (c : Context) (t : CTensor) (arr : NdArray) :
    Context.feed_input_unchecked c t arr =
        (if t.op = .PH then some (c.bindOutput t arr) else none) ∧
      Context.feed_input c t arr =
        (if t.op = .PH ∧ shapeMatches t arr = true then some (c.bindOutput t arr)
         else none) ∧
      (c.bindOutput t arr).outputs t.id = some arr := by
  refine ⟨rfl, ?_, by simp [Context.bindOutput]⟩
  unfold Context.feed_input
  by_cases h1 : t.op = .PH <;> by_cases h2 : shapeMatches t arr = true <;>
    simp [h1, h2]

/-- Claim C10: every in-place binary op compute mutates its first
input's storage elementwise with the (broadcast) second input under the
respective operation, leaves the second input unchanged, and returns the
delegate marker to input 0 instead of a fresh output value. -/
theorem claim_C10 (x0 x1 b2 : NdArray) (h : ndBroadcast x1 x0.shape = some b2) :
    InplaceAddOp.compute x0 x1 =
        some (ofFn x0.shape fun ix => x0.get ix + b2.get ix, x1, .delegate 0) ∧
      InplaceSubOp.compute x0 x1 =
        some (ofFn x0.shape fun ix => x0.get ix - b2.get ix, x1, .delegate 0) ∧
      InplaceMulOp.compute x0 x1 =
        some (ofFn x0.shape fun ix => x0.get ix * b2.get ix, x1, .delegate 0) ∧
      InplaceDivOp.compute x0 x1 =
        some (ofFn x0.shape fun ix => x0.get ix / b2.get ix, x1, .delegate 0) := by
  unfold InplaceAddOp.compute InplaceSubOp.compute InplaceMulOp.compute
    InplaceDivOp.compute ndBinOp
  rw [h]
  exact ⟨rfl, rfl, rfl, rfl⟩

/-- Witness for C10 at concrete same-shape inputs. -/
theorem claim_C10_witness :
    ndBroadcast ⟨[2], [2, 2]⟩ (NdArray.mk [2] [1, 3]).shape = some ⟨[2], [2, 2]⟩ ∧
      (InplaceAddOp.compute ⟨[2], [1, 3]⟩ ⟨[2], [2, 2]⟩ =
          some (ofFn [2] fun ix =>
            NdArray.get ⟨[2], [1, 3]⟩ ix + NdArray.get ⟨[2], [2, 2]⟩ ix,
            ⟨[2], [2, 2]⟩, .delegate 0) ∧
        InplaceSubOp.compute ⟨[2], [1, 3]⟩ ⟨[2], [2, 2]⟩ =
          some (ofFn [2] fun ix =>
            NdArray.get ⟨[2], [1, 3]⟩ ix - NdArray.get ⟨[2], [2, 2]⟩ ix,
            ⟨[2], [2, 2]⟩, .delegate 0) ∧
        InplaceMulOp.compute ⟨[2], [1, 3]⟩ ⟨[2], [2, 2]⟩ =
          some (ofFn [2] fun ix =>
            NdArray.get ⟨[2], [1, 3]⟩ ix * NdArray.get ⟨[2], [2, 2]⟩ ix,
            ⟨[2], [2, 2]⟩, .delegate 0) ∧
        InplaceDivOp.compute ⟨[2], [1, 3]⟩ ⟨[2], [2, 2]⟩ =
          some (ofFn [2] fun ix =>
            NdArray.get ⟨[2], [1, 3]⟩ ix / NdArray.get ⟨[2], [2, 2]⟩ ix,
            ⟨[2], [2, 2]⟩, .delegate 0)) :=
  have hb : ndBroadcast ⟨[2], [2, 2]⟩ (NdArray.mk [2] [1, 3]).shape = some ⟨[2], [2, 2]⟩ := by
    norm_num [ndBroadcast, bcastCompat, bcastIdx, ofFn, shapeProd, List.range_succ,
      unflatten, NdArray.get, flattenIdx]
  ⟨hb, claim_C10 ⟨[2], [1, 3]⟩ ⟨[2], [2, 2]⟩ ⟨[2], [2, 2]⟩ hb⟩

set_option maxHeartbeats 4000000 in
/-- Claim C5: with pad 0, stride 1, dilation 1, an all-ones filter of
shape (2, 3, 2, 2) and an all-ones output gradient of shape (2, 2, 2, 2),
Conv2DTranspose::compute produces the input gradient of shape
(2, 3, 3, 3) whose every channel-batch slice is exactly
[2, 4, 2, 4, 8, 4, 2, 4, 2]. -/
theorem claim_C5 :
    Conv2DTranspose.compute ⟨0, 1, 1⟩ (ndOnes [2, 2, 2, 2]) (ndOnes [2, 3, 2, 2]) =
      .ok ⟨[2, 3, 3, 3],
        [2, 4, 2, 4, 8, 4, 2, 4, 2, 2, 4, 2, 4, 8, 4, 2, 4, 2,
         2, 4, 2, 4, 8, 4, 2, 4, 2, 2, 4, 2, 4, 8, 4, 2, 4, 2,
         2, 4, 2, 4, 8, 4, 2, 4, 2, 2, 4, 2, 4, 8, 4, 2, 4, 2]⟩ := by
  norm_num [Conv2DTranspose.compute, getXh, ofFn, shapeProd, List.range_succ,
    col2imVal, sgemmColVal, Finset.sum_range_succ, Finset.sum_range_zero,
    unflatten, NdArray.get, ndOnes, flattenIdx, List.replicate, List.getD]

/-- Claim C6: for every invocation of Conv2DTranspose::compute on a
4-D gradient of shape (batch, ych, yh, yw) and a 4-D filter of shape
(ych, xch, kh, kw) (with non-degenerate spatial sizes and padding small
enough that the size formula is non-negative), the returned array has
shape (batch, xch, xh, xw) with
xh = (yh - 1)*stride - 2*pad + dilation*(kh - 1) + 1 and the analogous
xw — the standard transposed-convolution size relation. -/
theorem claim_C6 (op : Conv2DTranspose) (gy w : NdArray)
    (batch ych yh yw xch kh kw : Nat)
    (hg : gy.shape = [batch, ych, yh, yw]) (hw : w.shape = [ych, xch, kh, kw])
    (hyh : 1 ≤ yh) (hyw : 1 ≤ yw) (hkh : 1 ≤ kh) (hkw : 1 ≤ kw)
    (hph : 2 * op.pad ≤ (yh - 1) * op.stride)
    (hpw : 2 * op.pad ≤ (yw - 1) * op.stride) :
    cvShape (op.compute gy w) =
        some [batch, xch, getXh op yh kh, getXh op yw kw] ∧
      (getXh op yh kh : ℤ) =
        ((yh : ℤ) - 1) * op.stride - 2 * op.pad + op.dilation * ((kh : ℤ) - 1) + 1 ∧
      (getXh op yw kw : ℤ) =
        ((yw : ℤ) - 1) * op.stride - 2 * op.pad + op.dilation * ((kw : ℤ) - 1) + 1 := by
  refine ⟨?_, ?_, ?_⟩
  · unfold Conv2DTranspose.compute
    rw [if_pos (by simp [hg, hw])]
    simp [cvShape, ofFn, hg, hw]
  · have hle : 2 * op.pad ≤ (yh - 1) * op.stride + op.dilation * (kh - 1) + 1 := by
      refine le_trans hph ?_
      rw [Nat.add_assoc]
      exact Nat.le_add_right _ _
    have hA : ((yh - 1 : ℕ) : ℤ) = (yh : ℤ) - 1 := by omega
    have hK : ((kh - 1 : ℕ) : ℤ) = (kh : ℤ) - 1 := by omega
    unfold getXh
    rw [Nat.cast_sub hle]
    push_cast [hA, hK]
    ring
  · have hle : 2 * op.pad ≤ (yw - 1) * op.stride + op.dilation * (kw - 1) + 1 := by
      refine le_trans hpw ?_
      rw [Nat.add_assoc]
      exact Nat.le_add_right _ _
    have hA : ((yw - 1 : ℕ) : ℤ) = (yw : ℤ) - 1 := by omega
    have hK : ((kw - 1 : ℕ) : ℤ) = (kw : ℤ) - 1 := by omega
    unfold getXh
    rw [Nat.cast_sub hle]
    push_cast [hA, hK]
    ring

/-- Witness for C6 at the test fixture sizes (yh = yw = kh = kw = 2,
pad 0, stride 1, dilation 1, giving xh = xw = 3). -/
theorem claim_C6_witness :
    (ndOnes [2, 2, 2, 2]).shape = [2, 2, 2, 2] ∧
      (ndOnes [2, 3, 2, 2]).shape = [2, 3, 2, 2] ∧
      cvShape (Conv2DTranspose.compute ⟨0, 1, 1⟩ (ndOnes [2, 2, 2, 2]) (ndOnes [2, 3, 2, 2])) =
        some [2, 3, getXh ⟨0, 1, 1⟩ 2 2, getXh ⟨0, 1, 1⟩ 2 2] ∧
      (getXh ⟨0, 1, 1⟩ 2 2 : ℤ) =
        ((2 : ℤ) - 1) * 1 - 2 * 0 + 1 * ((2 : ℤ) - 1) + 1 :=
  have h := claim_C6 ⟨0, 1, 1⟩ (ndOnes [2, 2, 2, 2]) (ndOnes [2, 3, 2, 2])
    2 2 2 2 3 2 2 rfl rfl (by decide) (by decide) (by decide) (by decide)
    (by decide) (by decide)
  ⟨rfl, rfl, h.1, h.2.1⟩

/-- Counterexample to claim C7: with the non-scalar equal-count operands
x0 of shape [1, 2] and x1 of shape [2] (different dimensionality, x0 the
higher-rank one), add_forward and mul_forward invoke the kernel as
`x1 op x0`, whose broadcast of [1, 2] into [2] panics — so the returned
result is fatal instead of the ordinary elementwise result, which does
exist. -/
theorem claim_C7_counterexample :
    add_forward ⟨[1, 2], [5, 7]⟩ ⟨[2], [1, 2]⟩ = .fatal ∧
      mul_forward ⟨[1, 2], [5, 7]⟩ ⟨[2], [1, 2]⟩ = .fatal ∧
      (npElemwise (· + ·) ⟨[1, 2], [5, 7]⟩ ⟨[2], [1, 2]⟩).isSome = true ∧
      binForwardIsScalar [1, 2] = false ∧ binForwardIsScalar [2] = false ∧
      shapeProd [1, 2] = shapeProd [2] ∧
      ([1, 2] : Shape).length ≠ ([2] : Shape).length := by
  refine ⟨by decide, by decide, ?_, by decide, by decide, by decide, by decide⟩
  decide

/-! ## Row-major index theory -/

theorem shapeProd_nil : shapeProd [] = 1 := rfl

theorem shapeProd_cons (d : Nat) (ds : Shape) :
    shapeProd (d :: ds) = d * shapeProd ds := by
  simp [shapeProd]

theorem IdxOK_nil (ix : Index) : IdxOK [] ix ↔ ix = [] := by
  constructor
  · rintro ⟨h, -⟩
    exact List.length_eq_zero.mp h
  · rintro rfl
    exact ⟨rfl, fun j => by simp [List.getD]⟩

theorem IdxOK_cons (d : Nat) (ds : Shape) (i : Nat) (is : Index) :
    IdxOK (d :: ds) (i :: is) ↔ i < d ∧ IdxOK ds is := by
  constructor
  · rintro ⟨hl, hb⟩
    refine ⟨by simpa using hb 0, by simpa using hl, fun j => by simpa using hb (j + 1)⟩
  · rintro ⟨hid, hl, hb⟩
    refine ⟨by simpa using hl, fun j => ?_⟩
    cases j with
    | zero => simpa using hid
    | succ j => simpa using hb j

theorem length_unflatten (s : Shape) (n : Nat) : (unflatten s n).length = s.length := by
  induction s generalizing n with
  | nil => rfl
  | cons d ds ih => simp [unflatten, ih]

theorem unflatten_IdxOK (s : Shape) (n : Nat) (h : n < shapeProd s) :
    IdxOK s (unflatten s n) := by
  induction s generalizing n with
  | nil => simpa [unflatten] using (IdxOK_nil []).mpr rfl
  | cons d ds ih =>
    rw [shapeProd_cons] at h
    rcases Nat.eq_zero_or_pos (shapeProd ds) with hP | hP
    · rw [hP, Nat.mul_zero] at h
      exact absurd h (Nat.not_lt_zero n)
    · rw [unflatten, IdxOK_cons]
      refine ⟨?_, ih _ (Nat.mod_lt _ hP)⟩
      rw [Nat.div_lt_iff_lt_mul hP]
      omega

theorem flattenIdx_lt (s : Shape) (ix : Index) (h : IdxOK s ix) :
    flattenIdx s ix < shapeProd s := by
  induction s generalizing ix with
  | nil => simp [flattenIdx, shapeProd]
  | cons d ds ih =>
    match ix with
    | [] => exact absurd h.1 (by simp)
    | i :: is =>
      rw [IdxOK_cons] at h
      have hrec := ih is h.2
      rw [flattenIdx, shapeProd_cons]
      calc i * shapeProd ds + flattenIdx ds is < i * shapeProd ds + shapeProd ds := by omega
        _ = (i + 1) * shapeProd ds := by ring
        _ ≤ d * shapeProd ds := Nat.mul_le_mul_right _ h.1

theorem flattenIdx_unflatten (s : Shape) (n : Nat) (h : n < shapeProd s) :
    flattenIdx s (unflatten s n) = n := by
  induction s generalizing n with
  | nil => simp [shapeProd_nil] at h; simp [unflatten, flattenIdx, h]
  | cons d ds ih =>
    rw [shapeProd_cons] at h
    have hP : 0 < shapeProd ds := by
      rcases Nat.eq_zero_or_pos (shapeProd ds) with hP | hP
      · rw [hP, Nat.mul_zero] at h
        exact absurd h (Nat.not_lt_zero n)
      · exact hP
    rw [unflatten, flattenIdx, ih _ (Nat.mod_lt _ hP)]
    exact Nat.div_add_mod' n (shapeProd ds)

theorem unflatten_flattenIdx (s : Shape) (ix : Index) (h : IdxOK s ix) :
    unflatten s (flattenIdx s ix) = ix := by
  induction s generalizing ix with
  | nil => simpa [unflatten] using ((IdxOK_nil ix).mp h).symm
  | cons d ds ih =>
    match ix with
    | [] => exact absurd h.1 (by simp)
    | i :: is =>
      rw [IdxOK_cons] at h
      have hr : flattenIdx ds is < shapeProd ds := flattenIdx_lt ds is h.2
      have hP : 0 < shapeProd ds := by omega
      rw [flattenIdx, unflatten]
      congr 1
      · rw [Nat.mul_comm i (shapeProd ds), Nat.mul_add_div hP, Nat.div_eq_of_lt hr,
          Nat.add_zero]
      · rw [Nat.mul_comm i (shapeProd ds), Nat.mul_add_mod, Nat.mod_eq_of_lt hr]
        exact ih is h.2

theorem ofFn_shape (s : Shape) (f : Index → ℚ) : (ofFn s f).shape = s := rfl

theorem ofFn_data_length (s : Shape) (f : Index → ℚ) :
    (ofFn s f).data.length = shapeProd s := by
  simp [ofFn]

theorem ofFn_data_getD (s : Shape) (f : Index → ℚ) (n : Nat) (h : n < shapeProd s) :
    (ofFn s f).data.getD n 0 = f (unflatten s n) := by
  simp [ofFn, List.getD_eq_getElem?_getD, List.getElem?_map, List.getElem?_range h]

theorem get_ofFn (s : Shape) (f : Index → ℚ) (ix : Index) (h : IdxOK s ix) :
    (ofFn s f).get ix = f ix := by
  unfold NdArray.get
  rw [ofFn_shape, ofFn_data_getD s f _ (flattenIdx_lt s ix h), unflatten_flattenIdx s ix h]

theorem ofFn_congr {s : Shape} {f g : Index → ℚ}
    (h : ∀ ix, IdxOK s ix → f ix = g ix) : ofFn s f = ofFn s g := by
  unfold ofFn
  congr 1
  refine List.map_congr_left fun n hn => ?_
  exact h _ (unflatten_IdxOK s n (List.mem_range.mp hn))

theorem sum_unflatten_collapse (s : Shape) (ix : Index) (d : List ℚ) (h : IdxOK s ix) :
    (∑ n ∈ Finset.range (shapeProd s),
        if unflatten s n = ix then d.getD n 0 else 0) = d.getD (flattenIdx s ix) 0 := by
  rw [Finset.sum_eq_single (flattenIdx s ix)]
  · rw [if_pos (unflatten_flattenIdx s ix h)]
  · intro n hn hne
    rw [if_neg]
    intro heq
    apply hne
    rw [← flattenIdx_unflatten s n (Finset.mem_range.mp hn), heq]
  · intro hmem
    exact absurd (Finset.mem_range.mpr (flattenIdx_lt s ix h)) hmem

theorem getD_append_lt (l1 l2 : List Nat) (j d : Nat) (h : j < l1.length) :
    (l1 ++ l2).getD j d = l1.getD j d := by
  rw [List.getD_eq_getElem?_getD, List.getD_eq_getElem?_getD, List.getElem?_append,
    if_pos h]

theorem getD_append_ge (l1 l2 : List Nat) (j d : Nat) (h : l1.length ≤ j) :
    (l1 ++ l2).getD j d = l2.getD (j - l1.length) d := by
  rw [List.getD_eq_getElem?_getD, List.getD_eq_getElem?_getD, List.getElem?_append,
    if_neg (by omega)]

theorem getD_take (l : List Nat) (k j d : Nat) (hj : j < k) :
    (l.take k).getD j d = l.getD j d := by
  rw [List.getD_eq_getElem?_getD, List.getD_eq_getElem?_getD, List.getElem?_take,
    if_pos hj]

theorem getD_drop (l : List Nat) (k j d : Nat) :
    (l.drop k).getD j d = l.getD (k + j) d := by
  rw [List.getD_eq_getElem?_getD, List.getD_eq_getElem?_getD, List.getElem?_drop]

theorem list_ext_getD (l1 l2 : List Nat) (hlen : l1.length = l2.length)
    (h : ∀ j, j < l1.length → l1.getD j 0 = l2.getD j 0) : l1 = l2 := by
  refine List.ext_getElem? fun n => ?_
  by_cases hn : n < l1.length
  · rw [List.getElem?_eq_getElem hn, List.getElem?_eq_getElem (hlen ▸ hn)]
    have := h n hn
    rw [List.getD_eq_getElem?_getD, List.getD_eq_getElem?_getD,
      List.getElem?_eq_getElem hn, List.getElem?_eq_getElem (hlen ▸ hn)] at this
    simpa using this
  · rw [List.getElem?_eq_none (by omega), List.getElem?_eq_none (by omega)]

theorem length_insAt (i x : Nat) (l : List Nat) (h : i ≤ l.length) :
    (insAt i x l).length = l.length + 1 := by
  simp [insAt]
  omega

theorem getD_insAt_lt (i x : Nat) (l : List Nat) (j d : Nat) (hj : j < i)
    (hi : i ≤ l.length) : (insAt i x l).getD j d = l.getD j d := by
  unfold insAt
  rw [getD_append_lt _ _ _ _ (by simp [List.length_take]; omega), getD_take _ _ _ _ hj]

theorem getD_insAt_self (i x : Nat) (l : List Nat) (d : Nat) (hi : i ≤ l.length) :
    (insAt i x l).getD i d = x := by
  unfold insAt
  rw [getD_append_ge _ _ _ _ (by simp [List.length_take])]
  have h1 : i - (l.take i).length = 0 := by simp [List.length_take]; omega
  rw [h1, List.getD_cons_zero]

theorem getD_insAt_gt (i x : Nat) (l : List Nat) (j d : Nat) (hj : i < j)
    (hi : i ≤ l.length) : (insAt i x l).getD j d = l.getD (j - 1) d := by
  unfold insAt
  rw [getD_append_ge _ _ _ _ (by simp [List.length_take]; omega)]
  have h1 : j - (l.take i).length = (j - i - 1) + 1 := by simp [List.length_take]; omega
  rw [h1, List.getD_cons_succ, getD_drop]
  congr 1
  omega

theorem insAt_succ_cons (i x a : Nat) (l : List Nat) :
    insAt (i + 1) x (a :: l) = a :: insAt i x l := rfl

theorem length_eraseAt (i : Nat) (l : List Nat) (h : i < l.length) :
    (eraseAt i l).length = l.length - 1 := by
  simp [eraseAt]
  omega

theorem getD_eraseAt_lt (i : Nat) (l : List Nat) (j d : Nat) (hj : j < i)
    (hi : i ≤ l.length) : (eraseAt i l).getD j d = l.getD j d := by
  unfold eraseAt
  rw [getD_append_lt _ _ _ _ (by simp [List.length_take]; omega), getD_take _ _ _ _ hj]

theorem getD_eraseAt_ge (i : Nat) (l : List Nat) (j d : Nat) (hj : i ≤ j)
    (hi : i ≤ l.length) : (eraseAt i l).getD j d = l.getD (j + 1) d := by
  unfold eraseAt
  rw [getD_append_ge _ _ _ _ (by simp [List.length_take]; omega), getD_drop]
  congr 1
  simp [List.length_take]
  omega

theorem shapeProd_insAt_one (i : Nat) (l : List Nat) :
    shapeProd (insAt i 1 l) = shapeProd l := by
  unfold insAt shapeProd
  rw [List.prod_append, List.prod_cons]
  conv_rhs => rw [← List.take_append_drop i l, List.prod_append]
  ring

theorem IdxOK_insAt (s : Shape) (i : Nat) (hi : i < s.length) (ix : Index)
    (h : IdxOK (eraseAt i s) ix) (j : Nat) (hj : j < s.getD i 1) :
    IdxOK s (insAt i j ix) := by
  have hlix : ix.length = s.length - 1 := by
    rw [h.1, length_eraseAt _ _ hi]
  have hile : i ≤ ix.length := by omega
  refine ⟨by rw [length_insAt _ _ _ hile]; omega, fun m => ?_⟩
  rcases Nat.lt_trichotomy m i with hm | hm | hm
  · rw [getD_insAt_lt _ _ _ _ _ hm hile, ← getD_eraseAt_lt i s m 1 hm (le_of_lt hi)]
    exact h.2 m
  · subst hm
    rw [getD_insAt_self _ _ _ _ hile]
    exact hj
  · rw [getD_insAt_gt _ _ _ _ _ hm hile]
    have hm1 : m - 1 + 1 = m := by omega
    have := h.2 (m - 1)
    rwa [getD_eraseAt_ge i s (m - 1) 1 (by omega) (le_of_lt hi), hm1] at this

theorem unflatten_insAt_one (s : Shape) (i n : Nat) (hi : i ≤ s.length)
    (hn : n < shapeProd s) :
    unflatten (insAt i 1 s) n = insAt i 0 (unflatten s n) := by
  induction i generalizing s n with
  | zero =>
    have h0 : insAt 0 1 s = 1 :: s := rfl
    have h1 : insAt 0 0 (unflatten s n) = 0 :: unflatten s n := rfl
    rw [h0, h1, unflatten, Nat.div_eq_of_lt hn, Nat.mod_eq_of_lt hn]
  | succ i ih =>
    match s with
    | [] => simp at hi
    | d :: ds =>
      have hP : 0 < shapeProd ds := by
        rcases Nat.eq_zero_or_pos (shapeProd ds) with hP | hP
        · rw [shapeProd_cons, hP, Nat.mul_zero] at hn
          exact absurd hn (Nat.not_lt_zero n)
        · exact hP
      rw [insAt_succ_cons, unflatten, unflatten, insAt_succ_cons]
      have hsp : shapeProd (insAt i 1 ds) = shapeProd ds := shapeProd_insAt_one i ds
      rw [hsp]
      congr 1
      exact ih ds (n % shapeProd ds) (by simpa using hi) (Nat.mod_lt _ hP)

theorem mixShape_length (xs gys : Shape) (k : Nat) (hk : k ≤ xs.length)
    (hlen : xs.length = gys.length) : (mixShape xs gys k).length = gys.length := by
  simp [mixShape]
  omega

theorem mixShape_getD (xs gys : Shape) (k j : Nat) (hk : k ≤ xs.length)
    (hlen : xs.length = gys.length) :
    (mixShape xs gys k).getD j 1 = if j < k then xs.getD j 1 else gys.getD j 1 := by
  unfold mixShape
  by_cases hj : j < k
  · rw [if_pos hj, getD_append_lt _ _ _ _ (by simp [List.length_take]; omega),
      getD_take _ _ _ _ hj]
  · rw [if_neg hj, getD_append_ge _ _ _ _ (by simp [List.length_take]; omega), getD_drop]
    congr 1
    simp [List.length_take]
    omega

theorem mixShape_zero (xs gys : Shape) : mixShape xs gys 0 = gys := rfl

theorem mixShape_full (xs gys : Shape) (hlen : xs.length = gys.length) :
    mixShape xs gys gys.length = xs := by
  unfold mixShape
  rw [← hlen, List.take_length, hlen, List.drop_length, List.append_nil]

theorem sum_range_add_split (a b : Nat) (F : Nat → ℚ) :
    ∑ n ∈ Finset.range (a + b), F n =
      (∑ n ∈ Finset.range a, F n) + ∑ r ∈ Finset.range b, F (a + r) := by
  induction b with
  | zero => simp
  | succ b ih =>
    rw [← Nat.add_assoc, Finset.sum_range_succ, Finset.sum_range_succ, ih]
    ring

theorem sum_range_mul_split (a P : Nat) (F : Nat → ℚ) :
    ∑ n ∈ Finset.range (a * P), F n =
      ∑ q ∈ Finset.range a, ∑ r ∈ Finset.range P, F (q * P + r) := by
  induction a with
  | zero => simp
  | succ a ih =>
    rw [Nat.succ_mul, sum_range_add_split, ih, Finset.sum_range_succ]

theorem unflatten_cons_offset (d : Nat) (ds : Shape) (q r : Nat)
    (hr : r < shapeProd ds) :
    unflatten (d :: ds) (q * shapeProd ds + r) = q :: unflatten ds r := by
  have hP : 0 < shapeProd ds := by omega
  rw [unflatten]
  congr 1
  · rw [Nat.mul_comm q (shapeProd ds), Nat.mul_add_div hP, Nat.div_eq_of_lt hr,
      Nat.add_zero]
  · rw [Nat.mul_comm q (shapeProd ds), Nat.mul_add_mod, Nat.mod_eq_of_lt hr]

theorem clampMatch_nil_left (ix iy : Index) : clampMatch [] ix iy = true := rfl

theorem clampMatch_cons (x : Nat) (xs : Shape) (i : Nat) (is : Index) (y : Nat)
    (ys : Index) :
    clampMatch (x :: xs) (i :: is) (y :: ys) =
      ((x == 1 || i == y) && clampMatch xs is ys) := rfl

/-- The number of gradient flat positions whose index clamp-matches a
fixed valid operand index is the product of the broadcast-axis sizes. -/
theorem clampCount (xs : Shape) : ∀ (gys : Shape) (ix : Index) (c : ℚ),
    xs.length = gys.length → ix.length = xs.length →
    (∀ j, j < xs.length → ix.getD j 0 < xs.getD j 1) →
    (∀ j, j < xs.length → xs.getD j 1 = gys.getD j 1 ∨ xs.getD j 1 = 1) →
    (∀ j, j < xs.length → 1 ≤ gys.getD j 1) →
    (∑ n ∈ Finset.range (shapeProd gys),
        if clampMatch xs ix (unflatten gys n) then c else 0) =
      (bfactor xs gys : ℚ) * c := by
  induction xs with
  | nil =>
    intro gys ix c hlen hlix hv hcompat hpos
    have hg : gys = [] := (List.length_eq_zero).mp hlen.symm
    subst hg
    simp [shapeProd, unflatten, clampMatch, bfactor]
  | cons x xs ih =>
    intro gys ix c hlen hlix hv hcompat hpos
    match gys, ix with
    | [], _ => simp at hlen
    | _ :: _, [] => simp at hlix
    | g :: gys, i :: is =>
      have hlen' : xs.length = gys.length := by simpa using hlen
      have hlix' : is.length = xs.length := by simpa using hlix
      have hv' : ∀ j, j < xs.length → is.getD j 0 < xs.getD j 1 := fun j hj => by
        simpa using hv (j + 1) (by simpa using hj)
      have hcompat' : ∀ j, j < xs.length →
          xs.getD j 1 = gys.getD j 1 ∨ xs.getD j 1 = 1 := fun j hj => by
        simpa using hcompat (j + 1) (by simpa using hj)
      have hpos' : ∀ j, j < xs.length → 1 ≤ gys.getD j 1 := fun j hj => by
        simpa using hpos (j + 1) (by simpa using hj)
      have hx : x = g ∨ x = 1 := by simpa using hcompat 0 (by simp)
      have hgpos : 1 ≤ g := by simpa using hpos 0 (by simp)
      have hi : i < x := by simpa using hv 0 (by simp)
      rw [shapeProd_cons, sum_range_mul_split]
      have hinner : ∀ q, q < g →
          (∑ r ∈ Finset.range (shapeProd gys),
            if clampMatch (x :: xs) (i :: is) (unflatten (g :: gys) (q * shapeProd gys + r))
            then c else 0) =
          (if x = 1 ∨ i = q then (bfactor xs gys : ℚ) * c else 0) := by
        intro q hq
        by_cases hP : 0 < shapeProd gys
        · have hrw : ∀ r, r < shapeProd gys →
              (if clampMatch (x :: xs) (i :: is)
                  (unflatten (g :: gys) (q * shapeProd gys + r)) then c else 0) =
              (if x = 1 ∨ i = q then (if clampMatch xs is (unflatten gys r) then c else 0)
               else 0) := by
            intro r hr
            rw [unflatten_cons_offset g gys q r hr, clampMatch_cons]
            by_cases hcase : x = 1 ∨ i = q
            · have hb : (x == 1 || i == q) = true := by
                rcases hcase with h | h <;> simp [h]
              rw [if_pos hcase, hb]
              simp
            · have hb : (x == 1 || i == q) = false := by
                push_neg at hcase
                simp [hcase.1, hcase.2]
              rw [if_neg hcase, hb]
              simp
          rw [Finset.sum_congr rfl fun r hr => hrw r (Finset.mem_range.mp hr)]
          by_cases hcase : x = 1 ∨ i = q
          · rw [if_pos hcase]
            simp only [if_pos hcase]
            exact ih gys is c hlen' hlix' hv' hcompat' hpos'
          · rw [if_neg hcase]
            simp only [if_neg hcase]
            exact Finset.sum_const_zero
        · exfalso
          have hall : 0 < shapeProd gys := by
            unfold shapeProd
            refine List.prod_pos fun a ha => ?_
            rcases List.mem_iff_getElem.mp ha with ⟨j, hj, rfl⟩
            have hjx : j < xs.length := by omega
            have hb := hpos' j hjx
            rw [List.getD_eq_getElem?_getD, List.getElem?_eq_getElem hj] at hb
            simpa using hb
          exact hP hall
      rw [Finset.sum_congr rfl fun q hq => hinner q (Finset.mem_range.mp hq)]
      rcases hx with hx | hx
      · subst hx
        by_cases hx1 : x = 1
        · rw [Finset.sum_congr rfl fun q hq => by rw [if_pos (Or.inl hx1)]]
          rw [Finset.sum_const, Finset.card_range, bfactor, if_pos hx1]
          push_cast
          ring
        · have hrw2 : ∀ q, q < x →
              (if x = 1 ∨ i = q then (bfactor xs gys : ℚ) * c else 0) =
              (if q = i then (bfactor xs gys : ℚ) * c else 0) := by
            intro q hq
            by_cases hc : q = i
            · rw [if_pos hc, if_pos (Or.inr hc.symm)]
            · rw [if_neg hc, if_neg]
              rintro (h | h)
              · exact hx1 h
              · exact hc h.symm
          rw [Finset.sum_congr rfl fun q hq => hrw2 q (Finset.mem_range.mp hq)]
          rw [Finset.sum_ite_eq' (Finset.range x) i fun _ => (bfactor xs gys : ℚ) * c,
            if_pos (Finset.mem_range.mpr hi), bfactor, if_neg hx1]
          push_cast
          ring
      · subst hx
        rw [Finset.sum_congr rfl fun q hq => by rw [if_pos (Or.inl rfl)]]
        rw [Finset.sum_const, Finset.card_range, bfactor, if_pos rfl]
        push_cast
        ring

theorem getD_eq_of_lt (l : List Nat) (j d d' : Nat) (h : j < l.length) :
    l.getD j d = l.getD j d' := by
  rw [List.getD_eq_getElem?_getD, List.getD_eq_getElem?_getD,
    List.getElem?_eq_getElem h]
  rfl

theorem getD_insAt_ne (k j j' : Nat) (ix : List Nat) (m d : Nat) (hm : m ≠ k)
    (hk : k ≤ ix.length) :
    (insAt k j ix).getD m d = (insAt k j' ix).getD m d := by
  rcases Nat.lt_or_ge m k with h | h
  · rw [getD_insAt_lt _ _ _ _ _ h hk, getD_insAt_lt _ _ _ _ _ h hk]
  · have h2 : k < m := by omega
    rw [getD_insAt_gt _ _ _ _ _ h2 hk, getD_insAt_gt _ _ _ _ _ h2 hk]

theorem foldAxisSum_congr (A B : NdArray) (i : Nat) (hsh : A.shape = B.shape)
    (hget : ∀ ix, IdxOK A.shape ix → A.get ix = B.get ix) :
    foldAxisSum A i = foldAxisSum B i := by
  unfold foldAxisSum
  rw [hsh]
  refine ofFn_congr fun ix hix => ?_
  rcases Nat.lt_or_ge i B.shape.length with hi | hi
  · refine Finset.sum_congr rfl fun j hj => ?_
    refine hget _ ?_
    rw [hsh]
    refine IdxOK_insAt B.shape i hi ix hix j ?_
    rw [getD_eq_of_lt B.shape i 1 0 hi]
    exact Finset.mem_range.mp hj
  · have hz : B.shape.getD i 0 = 0 := by
      rw [List.getD_eq_getElem?_getD, List.getElem?_eq_none (by omega)]
      rfl
    rw [hz]
    simp

theorem reduceValk_nofold (xs gys : Shape) (k : Nat) (gy : NdArray)
    (hnf : ∀ j, j < k → ¬ xs.getD j 1 < gys.getD j 1)
    (ix : Index) (hix : IdxOK gys ix) :
    reduceValk xs gys k gy ix = gy.data.getD (flattenIdx gys ix) 0 := by
  unfold reduceValk
  have hcong : ∀ n, n < shapeProd gys →
      ((if matchUpto xs gys k ix (unflatten gys n) then gy.data.getD n 0 else 0) =
        (if unflatten gys n = ix then gy.data.getD n 0 else 0)) := by
    intro n hn
    refine if_congr ?_ rfl rfl
    constructor
    · intro hm
      refine list_ext_getD _ _ (by rw [length_unflatten, hix.1]) fun j hj => ?_
      rw [length_unflatten] at hj
      rcases hm j hj with ⟨hjk, hfold⟩ | heq
      · exact absurd hfold (hnf j hjk)
      · exact heq.symm
    · intro heq j hj
      right
      rw [heq]
  rw [Finset.sum_congr rfl fun n hn => hcong n (Finset.mem_range.mp hn)]
  exact sum_unflatten_collapse gys ix gy.data hix

theorem reduceValk_fold (xs gys : Shape) (k : Nat) (gy : NdArray) (ix' : Index)
    (hk : k < gys.length) (hlt : xs.getD k 1 < gys.getD k 1)
    (hix : k ≤ ix'.length) :
    ∑ j ∈ Finset.range (gys.getD k 1), reduceValk xs gys k gy (insAt k j ix') =
      reduceValk xs gys (k + 1) gy (insAt k 0 ix') := by
  unfold reduceValk
  rw [Finset.sum_comm]
  refine Finset.sum_congr rfl fun n hn => ?_
  have hiylen : (unflatten gys n).length = gys.length := length_unflatten gys n
  have hiyk : (unflatten gys n).getD k 0 < gys.getD k 1 :=
    (unflatten_IdxOK gys n (Finset.mem_range.mp hn)).2 k
  have hchar : ∀ j, matchUpto xs gys k (insAt k j ix') (unflatten gys n) ↔
      (j = (unflatten gys n).getD k 0 ∧
        matchUpto xs gys (k + 1) (insAt k 0 ix') (unflatten gys n)) := by
    intro j
    constructor
    · intro hm
      have hjk := hm k (by omega)
      rw [getD_insAt_self _ _ _ _ hix] at hjk
      rcases hjk with ⟨hkk, -⟩ | hjeq
      · omega
      · refine ⟨hjeq, fun m hmlen => ?_⟩
        by_cases hmk : m = k
        · subst hmk
          exact Or.inl ⟨by omega, hlt⟩
        · rcases hm m hmlen with ⟨hmlt, hf⟩ | hr
          · exact Or.inl ⟨by omega, hf⟩
          · right
            rw [getD_insAt_ne k 0 j ix' m 0 hmk hix]
            exact hr
    · rintro ⟨hjeq, hR⟩ m hmlen
      by_cases hmk : m = k
      · subst hmk
        right
        rw [getD_insAt_self _ _ _ _ hix]
        exact hjeq
      · rcases hR m hmlen with ⟨hmlt, hf⟩ | hr
        · left
          exact ⟨by omega, hf⟩
        · right
          rw [getD_insAt_ne k j 0 ix' m 0 hmk hix]
          exact hr
  by_cases hR : matchUpto xs gys (k + 1) (insAt k 0 ix') (unflatten gys n)
  · rw [if_pos hR]
    have hterm : ∀ j, (if matchUpto xs gys k (insAt k j ix') (unflatten gys n)
        then gy.data.getD n 0 else 0) =
        (if j = (unflatten gys n).getD k 0 then gy.data.getD n 0 else 0) := by
      intro j
      refine if_congr ?_ rfl rfl
      rw [hchar j]
      constructor
      · exact fun h => h.1
      · exact fun h => ⟨h, hR⟩
    rw [Finset.sum_congr rfl fun j _ => hterm j]
    rw [Finset.sum_ite_eq' (Finset.range (gys.getD k 1)) ((unflatten gys n).getD k 0)
      fun _ => gy.data.getD n 0, if_pos (Finset.mem_range.mpr hiyk)]
  · rw [if_neg hR]
    have hterm : ∀ j, (if matchUpto xs gys k (insAt k j ix') (unflatten gys n)
        then gy.data.getD n 0 else 0) = 0 := by
      intro j
      rw [if_neg]
      intro hm
      exact hR ((hchar j).mp hm).2
    rw [Finset.sum_congr rfl fun j _ => hterm j]
    exact Finset.sum_const_zero

theorem NdArray.ext2 (a b : NdArray) (h1 : a.shape = b.shape)
    (h2 : a.data = b.data) : a = b := by
  cases a
  cases b
  simp_all

theorem mixArr_fold_step (xs gys : Shape) (k : Nat) (gy : NdArray)
    (hlen : xs.length = gys.length) (hk : k < gys.length)
    (hx1 : xs.getD k 1 = 1) (hlt : xs.getD k 1 < gys.getD k 1) :
    expandDims (foldAxisSum (mixArr xs gys k gy) k) k = mixArr xs gys (k + 1) gy := by
  have hkx : k ≤ xs.length := by omega
  have hkx1 : k + 1 ≤ xs.length := by omega
  have hlenS : (mixShape xs gys k).length = gys.length := mixShape_length xs gys k hkx hlen
  have hkeS : k ≤ (eraseAt k (mixShape xs gys k)).length := by
    rw [length_eraseAt _ _ (by omega)]
    omega
  have hSk0 : (mixShape xs gys k).getD k 0 = gys.getD k 1 := by
    rw [getD_eq_of_lt _ k 0 1 (by omega), mixShape_getD xs gys k k hkx hlen,
      if_neg (lt_irrefl k)]
  have hSk1 : (mixShape xs gys k).getD k 1 = gys.getD k 1 := by
    rw [mixShape_getD xs gys k k hkx hlen, if_neg (lt_irrefl k)]
  have hshape : insAt k 1 (eraseAt k (mixShape xs gys k)) = mixShape xs gys (k + 1) := by
    refine list_ext_getD _ _ ?_ fun j hj => ?_
    · rw [length_insAt _ _ _ hkeS, length_eraseAt _ _ (by omega),
        mixShape_length xs gys (k + 1) hkx1 hlen]
      omega
    · have hjlen : j < gys.length := by
        rw [length_insAt _ _ _ hkeS, length_eraseAt _ _ (by omega)] at hj
        omega
      rw [getD_eq_of_lt _ j 0 1 hj,
        getD_eq_of_lt _ j 0 1
          (by rw [mixShape_length xs gys (k + 1) hkx1 hlen]; exact hjlen),
        mixShape_getD xs gys (k + 1) j hkx1 hlen]
      rcases Nat.lt_trichotomy j k with hjk | hjk | hjk
      · rw [getD_insAt_lt _ _ _ _ _ hjk hkeS, getD_eraseAt_lt _ _ _ _ hjk (by omega),
          mixShape_getD xs gys k j hkx hlen, if_pos hjk, if_pos (by omega)]
      · subst hjk
        rw [getD_insAt_self _ _ _ _ hkeS, if_pos (by omega)]
        exact hx1.symm
      · rw [getD_insAt_gt _ _ _ _ _ hjk hkeS,
          getD_eraseAt_ge _ _ _ _ (by omega) (by omega)]
        have hj1 : j - 1 + 1 = j := by omega
        rw [hj1, mixShape_getD xs gys k j hkx hlen, if_neg (by omega), if_neg (by omega)]
  have hprod : shapeProd (mixShape xs gys (k + 1)) =
      shapeProd (eraseAt k (mixShape xs gys k)) := by
    rw [← hshape, shapeProd_insAt_one]
  refine NdArray.ext2 _ _ hshape ?_
  have hL : (expandDims (foldAxisSum (mixArr xs gys k gy) k) k).data =
      (ofFn (eraseAt k (mixShape xs gys k)) fun ix =>
        ∑ j ∈ Finset.range ((mixShape xs gys k).getD k 0),
          (mixArr xs gys k gy).get (insAt k j ix)).data := rfl
  have hR : (mixArr xs gys (k + 1) gy).data =
      (ofFn (mixShape xs gys (k + 1)) (reduceValk xs gys (k + 1) gy)).data := rfl
  rw [hL, hR]
  unfold ofFn
  simp only
  rw [hprod]
  refine List.map_congr_left fun n hn => ?_
  have hn' : n < shapeProd (eraseAt k (mixShape xs gys k)) := List.mem_range.mp hn
  have hix' : IdxOK (eraseAt k (mixShape xs gys k)) (unflatten (eraseAt k (mixShape xs gys k)) n) :=
    unflatten_IdxOK _ n hn'
  have hixlen : k ≤ (unflatten (eraseAt k (mixShape xs gys k)) n).length := by
    rw [length_unflatten]
    exact hkeS
  rw [← hshape, unflatten_insAt_one _ k n hkeS hn']
  rw [hSk0]
  have hterm : ∀ j, j < gys.getD k 1 →
      (mixArr xs gys k gy).get (insAt k j (unflatten (eraseAt k (mixShape xs gys k)) n)) =
        reduceValk xs gys k gy (insAt k j (unflatten (eraseAt k (mixShape xs gys k)) n)) := by
    intro j hj
    refine get_ofFn _ _ _ ?_
    refine IdxOK_insAt (mixShape xs gys k) k (by omega) _ hix' j ?_
    rw [hSk1]
    exact hj
  rw [Finset.sum_congr rfl fun j hj => hterm j (Finset.mem_range.mp hj)]
  exact reduceValk_fold xs gys k gy _ hk hlt hixlen

theorem mixArr_skip (xs gys : Shape) (k : Nat) (gy : NdArray)
    (hlen : xs.length = gys.length) (hk : k < gys.length)
    (heq : xs.getD k 1 = gys.getD k 1) :
    mixArr xs gys (k + 1) gy = mixArr xs gys k gy := by
  have hkx : k ≤ xs.length := by omega
  have hkx1 : k + 1 ≤ xs.length := by omega
  have hsh : mixShape xs gys (k + 1) = mixShape xs gys k := by
    refine list_ext_getD _ _ ?_ fun j hj => ?_
    · rw [mixShape_length xs gys (k + 1) hkx1 hlen, mixShape_length xs gys k hkx hlen]
    · have hjlen : j < gys.length := by
        rw [mixShape_length xs gys (k + 1) hkx1 hlen] at hj
        exact hj
      rw [getD_eq_of_lt _ j 0 1 hj,
        getD_eq_of_lt _ j 0 1 (by rw [mixShape_length xs gys k hkx hlen]; exact hjlen),
        mixShape_getD xs gys (k + 1) j hkx1 hlen, mixShape_getD xs gys k j hkx hlen]
      by_cases hjk : j < k
      · rw [if_pos (by omega), if_pos hjk]
      · by_cases hjk2 : j < k + 1
        · have : j = k := by omega
          subst this
          rw [if_pos hjk2, if_neg hjk]
          exact heq
        · rw [if_neg hjk2, if_neg hjk]
  unfold mixArr
  rw [hsh]
  refine ofFn_congr fun ix hix => ?_
  unfold reduceValk
  refine Finset.sum_congr rfl fun n hn => ?_
  refine if_congr ?_ rfl rfl
  unfold matchUpto
  constructor <;> intro hm m hmlen
  · rcases hm m hmlen with ⟨hmk, hf⟩ | hr
    · left
      refine ⟨?_, hf⟩
      rcases Nat.lt_or_ge m k with h | h
      · exact h
      · have : m = k := by omega
        subst this
        rw [heq] at hf
        exact absurd hf (lt_irrefl _)
    · right
      exact hr
  · rcases hm m hmlen with ⟨hmk, hf⟩ | hr
    · left
      exact ⟨by omega, hf⟩
    · right
      exact hr

theorem foldedBy_zero (xs gys : Shape) : ¬ foldedBy xs gys 0 := by
  rintro ⟨j, hj, -⟩
  omega

theorem foldedBy_succ_of_lt (xs gys : Shape) (k : Nat)
    (h : xs.getD k 1 < gys.getD k 1) : foldedBy xs gys (k + 1) :=
  ⟨k, Nat.lt_succ_self k, h⟩

theorem foldedBy_succ_iff (xs gys : Shape) (k : Nat)
    (h : ¬ xs.getD k 1 < gys.getD k 1) :
    foldedBy xs gys (k + 1) ↔ foldedBy xs gys k := by
  constructor
  · rintro ⟨j, hj, hf⟩
    rcases Nat.lt_or_ge j k with hjk | hjk
    · exact ⟨j, hjk, hf⟩
    · have : j = k := by omega
      subst this
      exact absurd hf h
  · rintro ⟨j, hj, hf⟩
    exact ⟨j, by omega, hf⟩

theorem pbog_loop_inv (xs gys : Shape) (gy : NdArray)
    (hlen : xs.length = gys.length) (hsh : gy.shape = gys)
    (hcompat : ∀ j, j < gys.length → xs.getD j 1 = gys.getD j 1 ∨ xs.getD j 1 = 1)
    (hpos : ∀ j, j < gys.length → 1 ≤ gys.getD j 1) :
    ∀ (l : List (Nat × Nat)) (k : Nat), k ≤ gys.length →
      l = (xs.drop k).zip (gys.drop k) →
      PreprocessBinOpGrad.loop gy false (List.enumFrom k l)
          (if foldedBy xs gys k then some (mixArr xs gys k gy) else none) =
        some (if foldedBy xs gys gys.length then some (mixArr xs gys gys.length gy)
              else none) := by
  intro l
  induction l with
  | nil =>
    intro k hk hl
    have hlen0 := congrArg List.length hl
    simp only [List.length_nil, List.length_zip, List.length_drop] at hlen0
    have hkeq : k = gys.length := by omega
    subst hkeq
    rfl
  | cons p tl ih =>
    intro k hk hl
    have hklt : k < gys.length := by
      rcases Nat.lt_or_ge k gys.length with h | h
      · exact h
      · exfalso
        have h1 : gys.drop k = [] := List.drop_eq_nil_of_le (by omega)
        rw [h1, List.zip_nil_right] at hl
        simp at hl
    have hkx : k < xs.length := by omega
    have hdx : xs.drop k = xs.getD k 1 :: xs.drop (k + 1) := by
      rw [List.drop_eq_getElem_cons hkx]
      congr 1
      exact (List.getD_eq_getElem xs 1 hkx).symm
    have hdg : gys.drop k = gys.getD k 1 :: gys.drop (k + 1) := by
      rw [List.drop_eq_getElem_cons hklt]
      congr 1
      exact (List.getD_eq_getElem gys 1 hklt).symm
    rw [hdx, hdg, List.zip_cons_cons] at hl
    injection hl with hp htl
    subst hp
    subst htl
    rw [show List.enumFrom k ((xs.getD k 1, gys.getD k 1) ::
        ((xs.drop (k + 1)).zip (gys.drop (k + 1)))) =
      (k, xs.getD k 1, gys.getD k 1) ::
        List.enumFrom (k + 1) ((xs.drop (k + 1)).zip (gys.drop (k + 1))) from rfl]
    rw [PreprocessBinOpGrad.loop]
    by_cases hcase : xs.getD k 1 < gys.getD k 1
    · have hx1 : xs.getD k 1 = 1 := by
        rcases hcompat k hklt with h | h
        · omega
        · exact h
      rw [if_pos hcase, if_pos hx1]
      by_cases hfk : foldedBy xs gys k
      · rw [if_pos hfk]
        simp only [Option.getD_some, Bool.false_eq_true, if_false]
        rw [mixArr_fold_step xs gys k gy hlen hklt hx1 hcase]
        have happ := ih (k + 1) (by omega) rfl
        rw [if_pos (foldedBy_succ_of_lt xs gys k hcase)] at happ
        exact happ
      · rw [if_neg hfk]
        simp only [Option.getD_none, Bool.false_eq_true, if_false]
        have hshp : mixShape xs gys k = gys := by
          refine list_ext_getD _ _
            (by rw [mixShape_length xs gys k (by omega) hlen]) fun j hj => ?_
          have hjlen : j < gys.length := by
            rwa [mixShape_length xs gys k (by omega) hlen] at hj
          rw [getD_eq_of_lt _ j 0 1 hj, getD_eq_of_lt gys j 0 1 hjlen,
            mixShape_getD xs gys k j (by omega) hlen]
          by_cases hjk : j < k
          · rw [if_pos hjk]
            rcases hcompat j hjlen with h | h
            · exact h
            · have hnf : ¬ xs.getD j 1 < gys.getD j 1 := fun hf => hfk ⟨j, hjk, hf⟩
              have := hpos j hjlen
              omega
          · rw [if_neg hjk]
        have hfold_eq : foldAxisSum gy k = foldAxisSum (mixArr xs gys k gy) k := by
          refine foldAxisSum_congr gy (mixArr xs gys k gy) k ?_ ?_
          · rw [hsh]
            exact hshp.symm
          · intro ix hix
            rw [hsh] at hix
            have h1 : (mixArr xs gys k gy).get ix = reduceValk xs gys k gy ix := by
              refine get_ofFn _ _ _ ?_
              rw [show mixShape xs gys k = gys from hshp]
              exact hix
            rw [h1, reduceValk_nofold xs gys k gy
              (fun j hj hf => hfk ⟨j, hj, hf⟩) ix hix]
            unfold NdArray.get
            rw [hsh]
        rw [hfold_eq, mixArr_fold_step xs gys k gy hlen hklt hx1 hcase]
        have happ := ih (k + 1) (by omega) rfl
        rw [if_pos (foldedBy_succ_of_lt xs gys k hcase)] at happ
        exact happ
    · rw [if_neg hcase]
      have happ := ih (k + 1) (by omega) rfl
      by_cases hfk : foldedBy xs gys k
      · rw [if_pos hfk]
        rw [if_pos ((foldedBy_succ_iff xs gys k hcase).mpr hfk)] at happ
        have hms : mixArr xs gys (k + 1) gy = mixArr xs gys k gy := by
          apply mixArr_skip xs gys k gy hlen hklt
          rcases hcompat k hklt with h | h
          · exact h
          · have := hpos k hklt
            omega
        rw [hms] at happ
        exact happ
      · rw [if_neg hfk]
        rw [if_neg (fun h => hfk ((foldedBy_succ_iff xs gys k hcase).mp h))] at happ
        exact happ

theorem clampMatch_iff (xs : Shape) : ∀ (ix iy : Index),
    ix.length = xs.length → iy.length = xs.length →
    (clampMatch xs ix iy = true ↔
      ∀ j, j < xs.length → xs.getD j 1 = 1 ∨ ix.getD j 0 = iy.getD j 0) := by
  induction xs with
  | nil =>
    intro ix iy _ _
    simp [clampMatch_nil_left]
  | cons x xs ih =>
    intro ix iy hlix hliy
    match ix, iy with
    | [], _ => simp at hlix
    | _ :: _, [] => simp at hliy
    | i :: is, y :: ys =>
      rw [clampMatch_cons, Bool.and_eq_true, Bool.or_eq_true]
      have hrec := ih is ys (by simpa using hlix) (by simpa using hliy)
      constructor
      · rintro ⟨h0, h1⟩ j hj
        cases j with
        | zero => simpa using h0
        | succ j => simpa using (hrec.mp h1) j (by simpa using hj)
      · intro hall
        refine ⟨by simpa using hall 0 (by simp), ?_⟩
        exact hrec.mpr fun j hj => by simpa using hall (j + 1) (by simpa using hj)

theorem mixArr_full_eq (xs gys : Shape) (gy : NdArray)
    (hlen : xs.length = gys.length) (hsh : gy.shape = gys)
    (hcompat : ∀ j, j < gys.length → xs.getD j 1 = gys.getD j 1 ∨ xs.getD j 1 = 1)
    (hpos : ∀ j, j < gys.length → 1 ≤ gys.getD j 1) :
    mixArr xs gys gys.length gy = ofFn xs (broadcastReduceSum xs gy) := by
  unfold mixArr
  rw [mixShape_full xs gys hlen]
  refine ofFn_congr fun ix hix => ?_
  unfold reduceValk broadcastReduceSum
  rw [hsh]
  refine Finset.sum_congr rfl fun n hn => ?_
  refine if_congr ?_ rfl rfl
  have hiy := unflatten_IdxOK gys n (Finset.mem_range.mp hn)
  rw [clampMatch_iff xs ix (unflatten gys n) hix.1 (by rw [length_unflatten]; omega)]
  constructor
  · intro hm j hj
    rcases hm j (by omega) with ⟨-, hf⟩ | hr
    · left
      rcases hcompat j (by omega) with h | h
      · omega
      · exact h
    · right
      exact hr
  · intro hc j hj
    rcases hc j (by omega) with h1 | hr
    · have hgp := hpos j hj
      rcases Nat.lt_or_ge 1 (gys.getD j 1) with hg | hg
      · left
        exact ⟨hj, by omega⟩
      · right
        have hx := hix.2 j
        have hy := hiy.2 j
        rw [h1] at hx
        have hg1 : gys.getD j 1 = 1 := by omega
        rw [hg1] at hy
        omega
    · right
      exact hr

theorem pbog_compute_nonscalar (xs gys : Shape) (gy : NdArray)
    (hlen : xs.length = gys.length) (hsh : gy.shape = gys)
    (hcompat : ∀ j, j < gys.length → xs.getD j 1 = gys.getD j 1 ∨ xs.getD j 1 = 1)
    (hpos : ∀ j, j < gys.length → 1 ≤ gys.getD j 1) (hne : xs ≠ gys) :
    PreprocessBinOpGrad.compute gy xs = .ok (mixArr xs gys gys.length gy) := by
  have hxs_ne_nil : xs ≠ [] := by
    intro h
    subst h
    exact hne (List.length_eq_zero.mp hlen.symm).symm
  have hxs_ne_z : xs ≠ [0] := by
    intro h
    subst h
    have hl1 : 0 < gys.length := by
      rw [← hlen]
      simp
    have h0 := hcompat 0 hl1
    have h1 := hpos 0 hl1
    have h00 : ([0] : Shape).getD 0 1 = 0 := rfl
    rw [h00] at h0
    rcases h0 with h0 | h0 <;> omega
  have hscal : isScalarShape xs = false := by
    simp [isScalarShape]
    exact ⟨hxs_ne_nil, hxs_ne_z⟩
  unfold PreprocessBinOpGrad.compute
  rw [if_neg (by rw [hsh]; exact hne)]
  simp only [hscal, Bool.false_eq_true, if_false]
  rw [hsh]
  have hinv := pbog_loop_inv xs gys gy hlen hsh hcompat hpos
    ((xs.drop 0).zip (gys.drop 0)) 0 (by omega) rfl
  rw [if_neg (foldedBy_zero xs gys)] at hinv
  have hfold : foldedBy xs gys gys.length := by
    by_contra hnf
    apply hne
    refine list_ext_getD _ _ hlen fun j hj => ?_
    have hjg : j < gys.length := by omega
    rw [getD_eq_of_lt xs j 0 1 hj, getD_eq_of_lt gys j 0 1 hjg]
    rcases hcompat j hjg with h | h
    · exact h
    · have hgt : ¬ xs.getD j 1 < gys.getD j 1 := fun hf => hnf ⟨j, hjg, hf⟩
      have := hpos j hjg
      omega
  rw [if_pos hfold] at hinv
  rw [show (xs.zip gys).enum = List.enumFrom 0 ((xs.drop 0).zip (gys.drop 0)) from rfl]
  rw [hinv]

theorem tailSum_fold (gys : Shape) (k : Nat) (gy : NdArray) (ix : Index)
    (hk : k < gys.length) :
    ∑ j ∈ Finset.range (gys.getD k 1), tailSum gys k gy (j :: ix) =
      tailSum gys (k + 1) gy ix := by
  unfold tailSum
  rw [Finset.sum_comm]
  refine Finset.sum_congr rfl fun n hn => ?_
  have hkiy : k < (unflatten gys n).length := by
    rw [length_unflatten]
    exact hk
  have hdropc : (unflatten gys n).drop k =
      (unflatten gys n).getD k 0 :: (unflatten gys n).drop (k + 1) := by
    rw [List.drop_eq_getElem_cons hkiy]
    congr 1
    exact (List.getD_eq_getElem _ 0 hkiy).symm
  have hiyk : (unflatten gys n).getD k 0 < gys.getD k 1 :=
    (unflatten_IdxOK gys n (Finset.mem_range.mp hn)).2 k
  by_cases hR : (unflatten gys n).drop (k + 1) = ix
  · rw [if_pos hR]
    have hterm : ∀ j,
        (if (unflatten gys n).drop k = j :: ix then gy.data.getD n 0 else 0) =
          (if j = (unflatten gys n).getD k 0 then gy.data.getD n 0 else 0) := by
      intro j
      refine if_congr ?_ rfl rfl
      rw [hdropc]
      constructor
      · intro h
        injection h with h1 h2
        exact h1.symm
      · intro h
        rw [h, hR]
    rw [Finset.sum_congr rfl fun j _ => hterm j,
      Finset.sum_ite_eq' (Finset.range (gys.getD k 1)) ((unflatten gys n).getD k 0)
        fun _ => gy.data.getD n 0,
      if_pos (Finset.mem_range.mpr hiyk)]
  · rw [if_neg hR]
    have hterm : ∀ j,
        (if (unflatten gys n).drop k = j :: ix then gy.data.getD n 0 else 0) = 0 := by
      intro j
      rw [if_neg]
      intro h
      rw [hdropc] at h
      injection h with h1 h2
      exact hR h2
    rw [Finset.sum_congr rfl fun j _ => hterm j]
    exact Finset.sum_const_zero

theorem drop_cons_getD (l : List Nat) (k : Nat) (h : k < l.length) :
    l.drop k = l.getD k 1 :: l.drop (k + 1) := by
  rw [List.drop_eq_getElem_cons h]
  congr 1
  exact (List.getD_eq_getElem l 1 h).symm

theorem scalar_fold_step (gys : Shape) (k : Nat) (gy : NdArray) (hk : k < gys.length) :
    foldAxisSum (ofFn (gys.drop k) (tailSum gys k gy)) 0 =
      ofFn (gys.drop (k + 1)) (tailSum gys (k + 1) gy) := by
  have hshp : eraseAt 0 (gys.drop k) = gys.drop (k + 1) := by
    unfold eraseAt
    rw [List.take_zero, List.nil_append, List.drop_drop]
  have hd0 : (gys.drop k).getD 0 0 = gys.getD k 0 := by
    rw [getD_drop, Nat.add_zero]
  have hd01 : gys.getD k 0 = gys.getD k 1 := getD_eq_of_lt gys k 0 1 hk
  refine NdArray.ext2 _ _ ?_ ?_
  · show eraseAt 0 ((ofFn (gys.drop k) (tailSum gys k gy)).shape) = gys.drop (k + 1)
    rw [ofFn_shape]
    exact hshp
  · have hL : (foldAxisSum (ofFn (gys.drop k) (tailSum gys k gy)) 0).data =
        (ofFn (eraseAt 0 (gys.drop k)) fun ix =>
          ∑ j ∈ Finset.range ((gys.drop k).getD 0 0),
            (ofFn (gys.drop k) (tailSum gys k gy)).get (insAt 0 j ix)).data := rfl
    rw [hL, hshp]
    refine congrArg NdArray.data (ofFn_congr fun ix hix => ?_)
    rw [hd0, hd01]
    have hterm : ∀ j, j < gys.getD k 1 →
        (ofFn (gys.drop k) (tailSum gys k gy)).get (insAt 0 j ix) =
          tailSum gys k gy (j :: ix) := by
      intro j hj
      have hins : insAt 0 j ix = j :: ix := rfl
      rw [hins]
      refine get_ofFn _ _ _ ?_
      rw [drop_cons_getD gys k hk, IdxOK_cons]
      exact ⟨hj, hix⟩
    rw [Finset.sum_congr rfl fun j hj => hterm j (Finset.mem_range.mp hj)]
    exact tailSum_fold gys k gy ix hk

theorem pbog_loop_inv_scalar (gys : Shape) (gy : NdArray) (hsh : gy.shape = gys)
    (hpos2 : ∀ j, j < gys.length → 2 ≤ gys.getD j 1) :
    ∀ (l : List (Nat × Nat)) (k : Nat), k ≤ gys.length →
      l = ((List.replicate gys.length 1).drop k).zip (gys.drop k) →
      PreprocessBinOpGrad.loop gy true (List.enumFrom k l)
          (if k = 0 then none else some (ofFn (gys.drop k) (tailSum gys k gy))) =
        some (if gys.length = 0 then none
              else some (ofFn (gys.drop gys.length) (tailSum gys gys.length gy))) := by
  intro l
  induction l with
  | nil =>
    intro k hk hl
    have hlen0 := congrArg List.length hl
    simp only [List.length_nil, List.length_zip, List.length_drop,
      List.length_replicate] at hlen0
    have hkeq : k = gys.length := by omega
    subst hkeq
    rfl
  | cons p tl ih =>
    intro k hk hl
    have hklt : k < gys.length := by
      rcases Nat.lt_or_ge k gys.length with h | h
      · exact h
      · exfalso
        have h1 : gys.drop k = [] := List.drop_eq_nil_of_le (by omega)
        rw [h1, List.zip_nil_right] at hl
        simp at hl
    have hkr : k < (List.replicate gys.length 1).length := by
      rw [List.length_replicate]
      exact hklt
    have hdx : (List.replicate gys.length 1).drop k =
        1 :: (List.replicate gys.length 1).drop (k + 1) := by
      rw [List.drop_eq_getElem_cons hkr]
      congr 1
      exact List.getElem_replicate 1 hkr
    rw [hdx, drop_cons_getD gys k hklt, List.zip_cons_cons] at hl
    injection hl with hp htl
    subst hp
    subst htl
    rw [show List.enumFrom k ((1, gys.getD k 1) ::
        (((List.replicate gys.length 1).drop (k + 1)).zip (gys.drop (k + 1)))) =
      (k, 1, gys.getD k 1) ::
        List.enumFrom (k + 1)
          (((List.replicate gys.length 1).drop (k + 1)).zip (gys.drop (k + 1))) from rfl]
    rw [PreprocessBinOpGrad.loop]
    have hlt : 1 < gys.getD k 1 := by
      have := hpos2 k hklt
      omega
    rw [if_pos hlt, if_pos rfl]
    have happ := ih (k + 1) (by omega) rfl
    rw [if_neg (Nat.succ_ne_zero k)] at happ
    by_cases hk0 : k = 0
    · subst hk0
      rw [if_pos rfl]
      simp only [Option.getD_none, if_true]
      have hcongr : foldAxisSum gy 0 =
          foldAxisSum (ofFn (gys.drop 0) (tailSum gys 0 gy)) 0 := by
        refine foldAxisSum_congr gy (ofFn (gys.drop 0) (tailSum gys 0 gy)) 0 ?_ ?_
        · rw [hsh, ofFn_shape, List.drop_zero]
        · intro ix hix
          rw [hsh] at hix
          have h1 : (ofFn (gys.drop 0) (tailSum gys 0 gy)).get ix =
              tailSum gys 0 gy ix := by
            refine get_ofFn _ _ _ ?_
            rw [List.drop_zero]
            exact hix
          rw [h1]
          unfold tailSum
          have hcong2 : ∀ n, n < shapeProd gys →
              ((if (unflatten gys n).drop 0 = ix then gy.data.getD n 0 else 0) =
                (if unflatten gys n = ix then gy.data.getD n 0 else 0)) := by
            intro n hn
            rw [List.drop_zero]
          rw [Finset.sum_congr rfl fun n hn => hcong2 n (Finset.mem_range.mp hn),
            sum_unflatten_collapse gys ix gy.data hix]
          unfold NdArray.get
          rw [hsh]
      rw [hcongr, scalar_fold_step gys 0 gy hklt]
      exact happ
    · rw [if_neg hk0]
      simp only [Option.getD_some, if_true]
      rw [scalar_fold_step gys k gy hklt]
      exact happ

theorem pbog_compute_scalar (gys : Shape) (gy : NdArray) (hsh : gy.shape = gys)
    (hpos2 : ∀ j, j < gys.length → 2 ≤ gys.getD j 1) (hne : ([] : Shape) ≠ gys) :
    PreprocessBinOpGrad.compute gy [] =
      .ok (ofFn ([] : Shape) (broadcastReduceSum [] gy)) := by
  have hlen0 : gys.length ≠ 0 := by
    intro h
    exact hne (List.length_eq_zero.mp h).symm
  unfold PreprocessBinOpGrad.compute
  rw [if_neg (by rw [hsh]; exact hne)]
  have hscal : isScalarShape ([] : Shape) = true := rfl
  simp only [hscal, if_true]
  rw [hsh]
  have hinv := pbog_loop_inv_scalar gys gy hsh hpos2
    (((List.replicate gys.length 1).drop 0).zip (gys.drop 0)) 0 (by omega) rfl
  rw [if_pos rfl, if_neg hlen0] at hinv
  rw [show ((List.replicate gys.length 1).zip gys).enum =
    List.enumFrom 0 (((List.replicate gys.length 1).drop 0).zip (gys.drop 0)) from rfl]
  rw [hinv]
  have hdl : gys.drop gys.length = [] := List.drop_length gys
  rw [hdl]
  have harr : ofFn ([] : Shape) (tailSum gys gys.length gy) =
      ofFn ([] : Shape) (broadcastReduceSum [] gy) := by
    refine ofFn_congr fun ix hix => ?_
    have hix0 : ix = [] := (IdxOK_nil ix).mp hix
    subst hix0
    unfold tailSum broadcastReduceSum
    rw [hsh]
    refine Finset.sum_congr rfl fun n hn => ?_
    have hcond1 : (unflatten gys n).drop gys.length = [] := by
      apply List.drop_eq_nil_of_le
      rw [length_unflatten]
    rw [if_pos hcond1, if_pos (show clampMatch [] [] (unflatten gys n) = true from rfl)]
  rw [harr]

/-- Counterexample to claim C4 as stated: the operand shapes [1] (against
gradient shape [2, 2]) and [] (against gradient shape [1, 2]) are both
broadcastable against their gradient shapes, yet PreprocessBinOpGrad
returns results of shapes [1, 2] and [2] — not the operand's original
shape; and for the broadcastable pair [1] against [0] the compute panics
outright. -/
theorem claim_C4_counterexample :
    bcastCompat [1] [2, 2] = true ∧
      cvShape (PreprocessBinOpGrad.compute ⟨[2, 2], [1, 1, 1, 1]⟩ [1]) = some [1, 2] ∧
      some [1, 2] ≠ some ([1] : Shape) ∧
      bcastCompat [] [1, 2] = true ∧
      cvShape (PreprocessBinOpGrad.compute ⟨[1, 2], [5, 7]⟩ []) = some [2] ∧
      some [2] ≠ some ([] : Shape) ∧
      bcastCompat [1] [0] = true ∧
      PreprocessBinOpGrad.compute ⟨[0], []⟩ [1] = .fatal := by
  exact ⟨by decide, by decide, by decide, by decide, by decide, by decide,
    by decide, by decide⟩

/-- Claim C4 (amended): when broadcasting occurred, PreprocessBinOpGrad
reduces the gradient to the operand's shape with each element the sum of
the gradient elements broadcast from it, provided the operand shape has
the same rank as the gradient (with positive gradient extents), or the
operand is the pure scalar [] and every gradient extent is at least 2;
outside this domain the result shape is wrong or the op panics. -/
theorem claim_C4_amended (gy : NdArray) (xs : Shape)
    (hcase :
      (xs.length = gy.shape.length ∧
        (∀ j, j < gy.shape.length →
          xs.getD j 1 = gy.shape.getD j 1 ∨ xs.getD j 1 = 1) ∧
        (∀ j, j < gy.shape.length → 1 ≤ gy.shape.getD j 1)) ∨
      (xs = [] ∧ ∀ j, j < gy.shape.length → 2 ≤ gy.shape.getD j 1))
    (hne : xs ≠ gy.shape) :
    PreprocessBinOpGrad.compute gy xs = .ok (ofFn xs (broadcastReduceSum xs gy)) := by
  rcases hcase with ⟨hlen, hcompat, hpos⟩ | ⟨hxs, hpos2⟩
  · rw [pbog_compute_nonscalar xs gy.shape gy hlen rfl hcompat hpos hne]
    rw [mixArr_full_eq xs gy.shape gy hlen rfl hcompat hpos]
  · subst hxs
    exact pbog_compute_scalar gy.shape gy rfl hpos2 hne

/-- Witness for the amended C4 at the rank-2 pair [1, 2] against a
gradient of shape [3, 2]: the columns are summed, giving [9, 12]. -/
theorem claim_C4_witness :
    (([1, 2] : Shape) ≠ (NdArray.mk [3, 2] [1, 2, 3, 4, 5, 6]).shape) ∧
      PreprocessBinOpGrad.compute ⟨[3, 2], [1, 2, 3, 4, 5, 6]⟩ [1, 2] =
        .ok (ofFn [1, 2] (broadcastReduceSum [1, 2] ⟨[3, 2], [1, 2, 3, 4, 5, 6]⟩)) ∧
      ofFn [1, 2] (broadcastReduceSum [1, 2] ⟨[3, 2], [1, 2, 3, 4, 5, 6]⟩) =
        ⟨[1, 2], [9, 12]⟩ :=
  ⟨by decide,
    claim_C4_amended ⟨[3, 2], [1, 2, 3, 4, 5, 6]⟩ [1, 2]
      (Or.inl ⟨by decide, by decide, by decide⟩) (by decide),
    by norm_num [ofFn, broadcastReduceSum, shapeProd, List.range_succ, unflatten,
      clampMatch, Finset.sum_range_succ, Finset.sum_range_zero, flattenIdx,
      List.getD]⟩

theorem bcastCompat_eqlen (xs gys : Shape) (hlen : xs.length = gys.length)
    (hcompat : ∀ j, j < gys.length → xs.getD j 1 = gys.getD j 1 ∨ xs.getD j 1 = 1) :
    bcastCompat xs gys = true := by
  unfold bcastCompat
  rw [Bool.and_eq_true]
  refine ⟨by simp [hlen], ?_⟩
  have h0 : gys.length - xs.length = 0 := by omega
  rw [h0, List.drop_zero, List.all_eq_true]
  intro p hp
  rcases List.mem_iff_getElem.mp hp with ⟨i, hi, rfl⟩
  rw [List.getElem_zip]
  have hiz : i < gys.length := by
    rw [List.length_zip] at hi
    omega
  have hix : i < xs.length := by omega
  have hc := hcompat i hiz
  rw [List.getD_eq_getElem xs 1 hix, List.getD_eq_getElem gys 1 hiz] at hc
  rcases hc with h | h <;> simp [h]

theorem isScalarShape_false_of_compat (xs gys : Shape) (hlen : xs.length = gys.length)
    (hcompat : ∀ j, j < gys.length → xs.getD j 1 = gys.getD j 1 ∨ xs.getD j 1 = 1)
    (hpos : ∀ j, j < gys.length → 1 ≤ gys.getD j 1) (hne : xs ≠ gys) :
    isScalarShape xs = false := by
  have hxs_ne_nil : xs ≠ [] := by
    intro h
    subst h
    exact hne (List.length_eq_zero.mp hlen.symm).symm
  have hxs_ne_z : xs ≠ [0] := by
    intro h
    subst h
    have hl1 : 0 < gys.length := by
      rw [← hlen]
      simp
    have h0 := hcompat 0 hl1
    have h1 := hpos 0 hl1
    have h00 : ([0] : Shape).getD 0 1 = 0 := rfl
    rw [h00] at h0
    rcases h0 with h0 | h0 <;> omega
  simp [isScalarShape]
  exact ⟨hxs_ne_nil, hxs_ne_z⟩

theorem pbogg_compute_nonscalar (t : NdArray) (xs gys : Shape)
    (hsh : t.shape = xs) (hlen : xs.length = gys.length)
    (hcompat : ∀ j, j < gys.length → xs.getD j 1 = gys.getD j 1 ∨ xs.getD j 1 = 1)
    (hpos : ∀ j, j < gys.length → 1 ≤ gys.getD j 1) (hne : xs ≠ gys) :
    PreprocessBinOpGradGrad.compute t gys = .ok (expandedArr xs gys t) := by
  unfold PreprocessBinOpGradGrad.compute
  rw [hsh]
  rw [if_neg hne]
  rw [isScalarShape_false_of_compat xs gys hlen hcompat hpos hne]
  simp only [Bool.false_eq_true, if_false]
  unfold ndBroadcast
  rw [hsh, bcastCompat_eqlen xs gys hlen hcompat]
  simp only [if_true]
  unfold expandedArr
  rfl

theorem bcastIdx_eqlen_length (xs : Shape) (iy : Index) (hlen : iy.length = xs.length) :
    (bcastIdx xs iy).length = xs.length := by
  unfold bcastIdx
  simp [List.length_zip, hlen]

theorem bcastIdx_eqlen_getD (xs : Shape) (iy : Index) (hlen : iy.length = xs.length)
    (j : Nat) (hj : j < xs.length) :
    (bcastIdx xs iy).getD j 0 = if xs.getD j 1 = 1 then 0 else iy.getD j 0 := by
  unfold bcastIdx
  have h0 : iy.length - xs.length = 0 := by omega
  rw [h0, List.drop_zero]
  have hjz : j < (iy.zip xs).length := by
    rw [List.length_zip]
    omega
  rw [List.getD_eq_getElem _ 0 (by rw [List.length_map]; exact hjz),
    List.getElem_map, List.getElem_zip]
  rw [List.getD_eq_getElem xs 1 hj, List.getD_eq_getElem iy 0 (by omega)]

theorem bcastIdx_IdxOK (xs gys : Shape) (iy : Index) (hlen : xs.length = gys.length)
    (hcompat : ∀ j, j < gys.length → xs.getD j 1 = gys.getD j 1 ∨ xs.getD j 1 = 1)
    (hiy : IdxOK gys iy) : IdxOK xs (bcastIdx xs iy) := by
  have hly : iy.length = xs.length := by rw [hiy.1, hlen]
  refine ⟨bcastIdx_eqlen_length xs iy hly, fun j => ?_⟩
  rcases Nat.lt_or_ge j xs.length with hj | hj
  · rw [bcastIdx_eqlen_getD xs iy hly j hj]
    by_cases h1 : xs.getD j 1 = 1
    · rw [if_pos h1, h1]
      omega
    · rw [if_neg h1]
      have := hiy.2 j
      rcases hcompat j (by omega) with h | h
      · rw [h]
        exact this
      · exact absurd h h1
  · have : (bcastIdx xs iy).getD j 0 = 0 := by
      rw [List.getD_eq_getElem?_getD,
        List.getElem?_eq_none (by rw [bcastIdx_eqlen_length xs iy hly]; omega)]
      rfl
    rw [this]
    have : xs.getD j 1 = 1 := by
      rw [List.getD_eq_getElem?_getD, List.getElem?_eq_none (by omega)]
      rfl
    omega

theorem bcastIdx_of_clampMatch (xs gys : Shape) (ix iy : Index)
    (hlen : xs.length = gys.length) (hix : IdxOK xs ix) (hiy : IdxOK gys iy)
    (hcm : ∀ j, j < xs.length → xs.getD j 1 = 1 ∨ ix.getD j 0 = iy.getD j 0) :
    bcastIdx xs iy = ix := by
  have hly : iy.length = xs.length := by rw [hiy.1, hlen]
  refine list_ext_getD _ _ ?_ fun j hj => ?_
  · rw [bcastIdx_eqlen_length xs iy hly, hix.1]
  · rw [bcastIdx_eqlen_length xs iy hly] at hj
    rw [bcastIdx_eqlen_getD xs iy hly j hj]
    by_cases h1 : xs.getD j 1 = 1
    · rw [if_pos h1]
      have := hix.2 j
      rw [h1] at this
      omega
    · rw [if_neg h1]
      rcases hcm j hj with h | h
      · exact absurd h h1
      · exact h.symm

theorem pbog_expanded (xs gys : Shape) (t : NdArray) (hsh : t.shape = xs)
    (hlen : xs.length = gys.length)
    (hcompat : ∀ j, j < gys.length → xs.getD j 1 = gys.getD j 1 ∨ xs.getD j 1 = 1)
    (hpos : ∀ j, j < gys.length → 1 ≤ gys.getD j 1) (hne : xs ≠ gys) :
    PreprocessBinOpGrad.compute (expandedArr xs gys t) xs =
      .ok (ofFn xs fun ix => (bfactor xs gys : ℚ) * t.get ix) := by
  have hE : (expandedArr xs gys t).shape = gys := rfl
  rw [pbog_compute_nonscalar xs gys (expandedArr xs gys t) hlen hE hcompat hpos hne,
    mixArr_full_eq xs gys (expandedArr xs gys t) hlen hE hcompat hpos]
  congr 1
  refine ofFn_congr fun ix hix => ?_
  unfold broadcastReduceSum
  rw [hE]
  have hterm : ∀ n, n < shapeProd gys →
      (if clampMatch xs ix (unflatten gys n) then
        (expandedArr xs gys t).data.getD n 0 else 0) =
      (if clampMatch xs ix (unflatten gys n) then t.get ix else 0) := by
    intro n hn
    by_cases hcm : clampMatch xs ix (unflatten gys n) = true
    · rw [if_pos hcm, if_pos hcm]
      have hiy := unflatten_IdxOK gys n hn
      have hdata : (expandedArr xs gys t).data.getD n 0 =
          t.get (bcastIdx xs (unflatten gys n)) := ofFn_data_getD gys _ n hn
      rw [hdata]
      congr 1
      refine bcastIdx_of_clampMatch xs gys ix (unflatten gys n) hlen hix hiy ?_
      exact (clampMatch_iff xs ix (unflatten gys n) hix.1
        (by rw [length_unflatten]; omega)).mp hcm
    · rw [if_neg hcm, if_neg hcm]
  rw [Finset.sum_congr rfl fun n hn => hterm n (Finset.mem_range.mp hn)]
  refine clampCount xs gys ix (t.get ix) hlen hix.1 (fun j hj => hix.2 j)
    (fun j hj => hcompat j (by omega)) (fun j hj => hpos j (by omega))

theorem pbogg_scaled (xs gys : Shape) (t : NdArray) (hsh : t.shape = xs)
    (hlen : xs.length = gys.length)
    (hcompat : ∀ j, j < gys.length → xs.getD j 1 = gys.getD j 1 ∨ xs.getD j 1 = 1)
    (hpos : ∀ j, j < gys.length → 1 ≤ gys.getD j 1) (hne : xs ≠ gys) :
    PreprocessBinOpGradGrad.compute
        (ofFn xs fun ix => (bfactor xs gys : ℚ) * t.get ix) gys =
      .ok (ofFn gys fun iy => (bfactor xs gys : ℚ) * (expandedArr xs gys t).get iy) := by
  rw [pbogg_compute_nonscalar (ofFn xs fun ix => (bfactor xs gys : ℚ) * t.get ix)
    xs gys rfl hlen hcompat hpos hne]
  congr 1
  unfold expandedArr
  refine ofFn_congr fun iy hiy => ?_
  have hbOK : IdxOK xs (bcastIdx xs iy) := bcastIdx_IdxOK xs gys iy hlen hcompat hiy
  rw [get_ofFn xs _ _ hbOK, get_ofFn gys _ _ hiy]

/-- Counterexample to claim C1: with operand shape [1] broadcastable
against [2], the gradient [5, 5] of the broadcast shape is a valid
broadcast of the [1]-shaped tensor [5], yet reducing it and re-expanding
yields [10, 10], not [5, 5]; likewise expanding the [1]-shaped gradient
[5] and reducing gives [10], not [5] — the two ops are not mutual
inverses, each round trip scales by the broadcast factor 2. -/
theorem claim_C1_counterexample :
    ndBroadcast ⟨[1], [5]⟩ [2] = some ⟨[2], [5, 5]⟩ ∧
      PreprocessBinOpGrad.compute ⟨[2], [5, 5]⟩ [1] = .ok ⟨[1], [10]⟩ ∧
      PreprocessBinOpGradGrad.compute ⟨[1], [10]⟩ [2] = .ok ⟨[2], [10, 10]⟩ ∧
      (NdArray.mk [2] [10, 10]) ≠ ⟨[2], [5, 5]⟩ ∧
      PreprocessBinOpGradGrad.compute ⟨[1], [5]⟩ [2] = .ok ⟨[2], [5, 5]⟩ ∧
      PreprocessBinOpGrad.compute ⟨[2], [5, 5]⟩ [1] ≠ .ok ⟨[1], [5]⟩ := by
  refine ⟨?_, ?_, ?_, by decide, ?_, ?_⟩ <;>
    norm_num [ndBroadcast, bcastCompat, bcastIdx, ofFn, shapeProd, List.range_succ,
      unflatten, NdArray.get, flattenIdx, PreprocessBinOpGrad.compute,
      PreprocessBinOpGrad.loop, PreprocessBinOpGradGrad.compute, isScalarShape,
      foldAxisSum, expandDims, insAt, eraseAt, Finset.sum_range_succ,
      Finset.sum_range_zero, List.getD, List.enum, List.enumFrom, List.zip,
      List.zipWith]

/-- Claim C1 (amended): on equal-rank broadcastable shape pairs with
positive extents the reduction and expansion ops are mutual inverses
only in the no-broadcast case, where both delegate to their input;
when broadcasting occurred, expansion of an operand-shaped gradient
followed by reduction multiplies it by the product of the broadcast-axis
sizes, and reduction of a broadcast-shaped gradient followed by
expansion scales it by the same factor. -/
theorem claim_C1_amended (gy t : NdArray) (xs gys : Shape)
    (hsh : t.shape = xs) (hlen : xs.length = gys.length)
    (hcompat : ∀ j, j < gys.length → xs.getD j 1 = gys.getD j 1 ∨ xs.getD j 1 = 1)
    (hpos : ∀ j, j < gys.length → 1 ≤ gys.getD j 1) (hne : xs ≠ gys) :
    PreprocessBinOpGrad.compute gy gy.shape = .delegate 0 ∧
      PreprocessBinOpGradGrad.compute gy gy.shape = .delegate 0 ∧
      PreprocessBinOpGradGrad.compute t gys = .ok (expandedArr xs gys t) ∧
      PreprocessBinOpGrad.compute (expandedArr xs gys t) xs =
        .ok (ofFn xs fun ix => (bfactor xs gys : ℚ) * t.get ix) ∧
      PreprocessBinOpGradGrad.compute
          (ofFn xs fun ix => (bfactor xs gys : ℚ) * t.get ix) gys =
        .ok (ofFn gys fun iy => (bfactor xs gys : ℚ) * (expandedArr xs gys t).get iy) := by
  refine ⟨?_, ?_, ?_, ?_, ?_⟩
  · unfold PreprocessBinOpGrad.compute
    rw [if_pos rfl]
  · unfold PreprocessBinOpGradGrad.compute
    rw [if_pos rfl]
  · exact pbogg_compute_nonscalar t xs gys hsh hlen hcompat hpos hne
  · exact pbog_expanded xs gys t hsh hlen hcompat hpos hne
  · exact pbogg_scaled xs gys t hsh hlen hcompat hpos hne

/-- Witness for the amended C1 at operand shape [1] against broadcast
shape [2]: expansion of [5] gives its canonical broadcast, reduction of
that gives 2 * [5] = [10]. -/
theorem claim_C1_witness :
    (([1] : Shape) ≠ [2]) ∧
      PreprocessBinOpGradGrad.compute ⟨[1], [5]⟩ [2] =
        .ok (expandedArr [1] [2] ⟨[1], [5]⟩) ∧
      PreprocessBinOpGrad.compute (expandedArr [1] [2] ⟨[1], [5]⟩) [1] =
        .ok (ofFn [1] fun ix => (bfactor [1] [2] : ℚ) * NdArray.get ⟨[1], [5]⟩ ix) ∧
      ofFn [1] (fun ix => (bfactor [1] [2] : ℚ) * NdArray.get ⟨[1], [5]⟩ ix) =
        ⟨[1], [10]⟩ :=
  have h := claim_C1_amended ⟨[2], [7, 9]⟩ ⟨[1], [5]⟩ [1] [2] rfl rfl
    (by decide) (by decide) (by decide)
  ⟨by decide, h.2.2.1, h.2.2.2.1,
    by norm_num [ofFn, bfactor, shapeProd, List.range_succ, unflatten,
      NdArray.get, flattenIdx, List.getD]⟩

theorem bcastCompat_getD (s t : Shape) (hbc : bcastCompat s t = true) :
    s.length ≤ t.length ∧
      ∀ j, j < s.length →
        s.getD j 1 = t.getD (t.length - s.length + j) 1 ∨ s.getD j 1 = 1 := by
  unfold bcastCompat at hbc
  rw [Bool.and_eq_true] at hbc
  obtain ⟨h1, h2⟩ := hbc
  have hlen : s.length ≤ t.length := by simpa using h1
  refine ⟨hlen, fun j hj => ?_⟩
  rw [List.all_eq_true] at h2
  have hjz : j < ((t.drop (t.length - s.length)).zip s).length := by
    simp only [List.length_zip, List.length_drop]
    omega
  have hmem := h2 _ (List.getElem_mem hjz)
  rw [List.getElem_zip] at hmem
  have hjd : j < (t.drop (t.length - s.length)).length := by
    rw [List.length_drop]
    omega
  have hd : (t.drop (t.length - s.length))[j] = t.getD (t.length - s.length + j) 1 := by
    rw [List.getElem_drop, List.getD_eq_getElem t 1 (by omega)]
  have hs : s[j] = s.getD j 1 := (List.getD_eq_getElem s 1 hj).symm
  simp only [Bool.or_eq_true, beq_iff_eq] at hmem
  rcases hmem with h | h
  · left
    rw [← hs, ← hd]
    exact h
  · right
    rw [← hs]
    exact h

theorem getD_reverse (l : List Nat) (j d : Nat) (h : j < l.length) :
    l.reverse.getD j d = l.getD (l.length - 1 - j) d := by
  rw [List.getD_eq_getElem l.reverse d (by simpa using h), List.getElem_reverse,
    List.getD_eq_getElem l d (by omega)]

theorem npCommonRev_of_le (sR : List Nat) : ∀ (tR : List Nat),
    sR.length ≤ tR.length →
    (∀ j, j < sR.length → sR.getD j 1 = tR.getD j 1 ∨ sR.getD j 1 = 1) →
    (∀ j, j < tR.length → 1 ≤ tR.getD j 1) →
    npCommonRev sR tR = some tR := by
  induction sR with
  | nil =>
    intro tR _ _ _
    cases tR <;> rfl
  | cons a as ih =>
    intro tR hlen hcomp hpos
    match tR with
    | [] => simp at hlen
    | b :: bs =>
      have hab : a = b ∨ a = 1 := by simpa using hcomp 0 (by simp)
      have hbpos : 1 ≤ b := by simpa using hpos 0 (by simp)
      rw [npCommonRev]
      have hcond : a = b ∨ a = 1 ∨ b = 1 := by tauto
      rw [if_pos hcond]
      have hmax : max a b = b := by
        rcases hab with h | h <;> omega
      rw [ih bs (by simpa using hlen)
        (fun j hj => by simpa using hcomp (j + 1) (by simpa using hj))
        (fun j hj => by simpa using hpos (j + 1) (by simpa using hj))]
      simp [hmax]

theorem npBroadcastShape_of_compat (s t : Shape) (hbc : bcastCompat s t = true)
    (hpos : ∀ j, j < t.length → 1 ≤ t.getD j 1) :
    npBroadcastShape s t = some t := by
  obtain ⟨hlen, hcomp⟩ := bcastCompat_getD s t hbc
  unfold npBroadcastShape
  rw [npCommonRev_of_le s.reverse t.reverse (by simpa using hlen) ?_ ?_]
  · simp
  · intro j hj
    have hjs : j < s.length := by simpa using hj
    rw [getD_reverse s j 1 hjs, getD_reverse t j 1 (by omega)]
    have := hcomp (s.length - 1 - j) (by omega)
    have harith : t.length - s.length + (s.length - 1 - j) = t.length - 1 - j := by
      omega
    rw [harith] at this
    exact this
  · intro j hj
    have hjt : j < t.length := by simpa using hj
    rw [getD_reverse t j 1 hjt]
    exact hpos (t.length - 1 - j) (by omega)

theorem bcastIdx_self (s : Shape) (ix : Index) (hix : IdxOK s ix) :
    bcastIdx s ix = ix :=
  bcastIdx_of_clampMatch s s ix ix rfl hix hix fun _ _ => Or.inr rfl

theorem bcastCompat_self (s : Shape) : bcastCompat s s = true :=
  bcastCompat_eqlen s s rfl fun _ _ => Or.inl rfl

theorem npElemwise_of_compat (f : ℚ → ℚ → ℚ) (x0 x1 : NdArray)
    (hbc : bcastCompat x0.shape x1.shape = true)
    (hpos : ∀ j, j < x1.shape.length → 1 ≤ x1.shape.getD j 1) :
    npElemwise f x0 x1 =
      some (ofFn x1.shape fun ix => f (x0.get (bcastIdx x0.shape ix)) (x1.get ix)) := by
  have hbr0 : ndBroadcast x0 x1.shape =
      some (ofFn x1.shape fun ix => x0.get (bcastIdx x0.shape ix)) := by
    unfold ndBroadcast
    rw [hbc]
    rfl
  have hbr1 : ndBroadcast x1 x1.shape =
      some (ofFn x1.shape fun ix => x1.get (bcastIdx x1.shape ix)) := by
    unfold ndBroadcast
    rw [bcastCompat_self x1.shape]
    rfl
  unfold npElemwise
  rw [npBroadcastShape_of_compat x0.shape x1.shape hbc hpos]
  simp only [hbr0, hbr1]
  congr 1
  refine ofFn_congr fun ix hix => ?_
  rw [get_ofFn _ _ _ hix, get_ofFn _ _ _ hix, bcastIdx_self x1.shape ix hix]

theorem binForward_reordered (f : ℚ → ℚ → ℚ) (x0 x1 : NdArray)
    (hsc0 : binForwardIsScalar x0.shape = false)
    (hsc1 : binForwardIsScalar x1.shape = false)
    (hcount : shapeProd x0.shape = shapeProd x1.shape)
    (hbc : bcastCompat x0.shape x1.shape = true)
    (hcomm : ∀ a b, f a b = f b a) :
    binForward f x0 x1 =
      .ok (ofFn x1.shape fun ix => f (x0.get (bcastIdx x0.shape ix)) (x1.get ix)) := by
  unfold binForward
  simp only [hsc0, hsc1, Bool.not_false, Bool.false_and, Bool.and_self,
    Bool.false_eq_true, if_false, if_true]
  rw [if_neg (by omega)]
  unfold ndBinOp ndBroadcast
  rw [hbc]
  simp only [if_true]
  congr 1
  refine ofFn_congr fun ix hix => ?_
  rw [get_ofFn _ _ _ hix]
  exact hcomm _ _

/-- Claim C7 (amended): in the shared elementwise forward of Add and Mul,
when neither operand is scalar-like and the operands have equal total
element count, the kernel is invoked as `x1 op x0` — the *second* operand
is passed on the left, regardless of which operand is larger in rank.
When x0's shape broadcasts into x1's (in particular whenever the
higher-rank operand is x1), commutativity makes this reordering
semantically invisible: the result is exactly the ordinary elementwise
result of the operation on (x0, x1).  In the mirror-image case (x0 the
higher-rank operand) the kernel call panics instead (see the
counterexample). -/
theorem claim_C7_amended (x0 x1 : NdArray)
    (hsc0 : binForwardIsScalar x0.shape = false)
    (hsc1 : binForwardIsScalar x1.shape = false)
    (hcount : shapeProd x0.shape = shapeProd x1.shape)
    (hdim : x0.shape.length ≠ x1.shape.length)
    (hbc : bcastCompat x0.shape x1.shape = true)
    (hpos : ∀ j, j < x1.shape.length → 1 ≤ x1.shape.getD j 1) :
    add_forward x0 x1 =
        .ok (ofFn x1.shape fun ix => x0.get (bcastIdx x0.shape ix) + x1.get ix) ∧
      mul_forward x0 x1 =
        .ok (ofFn x1.shape fun ix => x0.get (bcastIdx x0.shape ix) * x1.get ix) ∧
      npElemwise (· + ·) x0 x1 =
        some (ofFn x1.shape fun ix => x0.get (bcastIdx x0.shape ix) + x1.get ix) ∧
      npElemwise (· * ·) x0 x1 =
        some (ofFn x1.shape fun ix => x0.get (bcastIdx x0.shape ix) * x1.get ix) :=
  ⟨binForward_reordered (· + ·) x0 x1 hsc0 hsc1 hcount hbc fun a b => add_comm a b,
    binForward_reordered (· * ·) x0 x1 hsc0 hsc1 hcount hbc fun a b => mul_comm a b,
    npElemwise_of_compat (· + ·) x0 x1 hbc hpos,
    npElemwise_of_compat (· * ·) x0 x1 hbc hpos⟩

/-- Witness for the amended C7 at x0 of shape [2] and x1 of shape [1, 2]
(equal element count, different rank, higher-rank operand second):
add gives [[6, 9]] and mul gives [[5, 14]], the ordinary elementwise
results. -/
theorem claim_C7_witness :
    binForwardIsScalar (NdArray.mk [2] [1, 2]).shape = false ∧
      binForwardIsScalar (NdArray.mk [1, 2] [5, 7]).shape = false ∧
      shapeProd [2] = shapeProd [1, 2] ∧
      (([2] : Shape).length ≠ ([1, 2] : Shape).length) ∧
      bcastCompat [2] [1, 2] = true ∧
      (add_forward ⟨[2], [1, 2]⟩ ⟨[1, 2], [5, 7]⟩ =
          .ok (ofFn [1, 2] fun ix =>
            NdArray.get ⟨[2], [1, 2]⟩ (bcastIdx [2] ix) +
              NdArray.get ⟨[1, 2], [5, 7]⟩ ix) ∧
        mul_forward ⟨[2], [1, 2]⟩ ⟨[1, 2], [5, 7]⟩ =
          .ok (ofFn [1, 2] fun ix =>
            NdArray.get ⟨[2], [1, 2]⟩ (bcastIdx [2] ix) *
              NdArray.get ⟨[1, 2], [5, 7]⟩ ix)) ∧
      ofFn [1, 2] (fun ix =>
          NdArray.get ⟨[2], [1, 2]⟩ (bcastIdx [2] ix) +
            NdArray.get ⟨[1, 2], [5, 7]⟩ ix) = ⟨[1, 2], [6, 9]⟩ :=
  have h := claim_C7_amended ⟨[2], [1, 2]⟩ ⟨[1, 2], [5, 7]⟩ rfl rfl rfl
    (by decide) rfl (by decide)
  ⟨rfl, rfl, rfl, by decide, rfl, ⟨h.1, h.2.1⟩,
    by norm_num [ofFn, shapeProd, List.range_succ, unflatten, NdArray.get,
      flattenIdx, bcastIdx, List.getD, List.zip, List.zipWith]⟩
